import Mathlib

/-!
Shallow embedding of the `combinatoric-game-theory` repository
(`combinatoric_game.py`, `triangle_peg_board.py`) and proofs about it.

The engine stores two `networkx.DiGraph` objects.  We model the subset of
networkx behaviour the engine uses:

* a plain directed graph (`DiGraph`): `add_node` is a no-op on a present
  node, `add_edge` auto-adds missing endpoints, `successors`/`predecessors`
  list edge targets/sources in insertion order, `len` is the node count;
* a graph whose nodes carry an optional attribute (`OptGraph`), modelling
  the `value=`/`winner=` node attributes of `self._optimal_move_graph`;
  a node added implicitly by `add_edge` has no attribute, and reading a
  missing attribute is a `KeyError` (modelled as `none`).

Python's unordered sets are modelled as lists of distinct elements; where
the source iterates over a set, the model iterates over such a list.
Loops whose termination is not syntactic (`while queue`, `while
new_solved_nodes`) take an explicit fuel argument; termination is then a
theorem (fuel beyond the proved bound does not change the result).
-/

set_option linter.unusedSectionVars false
set_option linter.unnecessarySeqFocus false

namespace CGame

universe u v

variable {N : Type u} [DecidableEq N] {V : Type v} [DecidableEq V]

/-- Directed graph over nodes `N`: node list in insertion order plus edge
list in insertion order.  Models the `networkx.DiGraph` operations used by
`self._graph`. -/
structure DiGraph (N : Type u) where
  nodes : List N
  edges : List (N × N)

deriving instance DecidableEq for DiGraph

/-- Model of `graph.add_node(n)`: no-op when the node is present. -/
def DiGraph.addNode (g : DiGraph N) (n : N) : DiGraph N :=
  if n ∈ g.nodes then g else ⟨g.nodes ++ [n], g.edges⟩

/-- Model of `graph.add_edge(u, v)`: auto-adds missing endpoints, no-op on
a present edge. -/
def DiGraph.addEdge (g : DiGraph N) (u v : N) : DiGraph N :=
  let g2 := (g.addNode u).addNode v
  if (u, v) ∈ g2.edges then g2 else ⟨g2.nodes, g2.edges ++ [(u, v)]⟩

/-- Model of `graph.successors(n)` (edge insertion order). -/
def DiGraph.successors (g : DiGraph N) (n : N) : List N :=
  g.edges.filterMap (fun e => if e.1 = n then some e.2 else none)

/-- Model of `graph.predecessors(n)` (edge insertion order). -/
def DiGraph.predecessors (g : DiGraph N) (n : N) : List N :=
  g.edges.filterMap (fun e => if e.2 = n then some e.1 else none)

/-- First entry with the given key in an association list of nodes with
optional attributes; `none` means the key is absent. -/
def lookupNode : List (N × Option V) → N → Option (Option V)
  | [], _ => none
  | p :: rest, n => if p.1 = n then some p.2 else lookupNode rest n

/-- Replace the attribute of the first entry with the given key, or append
a fresh entry; models `add_node(n, value=v)` on a node-attribute dict. -/
def setAttr : List (N × Option V) → N → V → List (N × Option V)
  | [], n, v => [(n, some v)]
  | p :: rest, n, v => if p.1 = n then (n, some v) :: rest else p :: setAttr rest n v

/-- Add a key with no attribute when it is absent; models the implicit
node insertion performed by `add_edge`. -/
def addKey (l : List (N × Option V)) (n : N) : List (N × Option V) :=
  if (lookupNode l n).isSome then l else l ++ [(n, none)]

/-- Attributed directed graph, modelling `self._optimal_move_graph`: nodes
carry an optional `value=`/`winner=` attribute. -/
structure OptGraph (N : Type u) (V : Type v) where
  nodes : List (N × Option V)
  edges : List (N × N)

deriving instance DecidableEq for OptGraph

/-- Model of `n in og` (node membership). -/
def OptGraph.mem (og : OptGraph N V) (n : N) : Bool :=
  (lookupNode og.nodes n).isSome

/-- Model of `og.node[n]['value']`: `none` is a `KeyError` (node absent or
attribute never set). -/
def OptGraph.getAttr (og : OptGraph N V) (n : N) : Option V :=
  (lookupNode og.nodes n).join

/-- The node list of the optimal-move graph, models `og.nodes()`. -/
def OptGraph.keys (og : OptGraph N V) : List N :=
  og.nodes.map Prod.fst

/-- Model of `og.add_node(n, value=v)`. -/
def OptGraph.addNodeAttr (og : OptGraph N V) (n : N) (v : V) : OptGraph N V :=
  ⟨setAttr og.nodes n v, og.edges⟩

/-- Model of `og.add_edge(u, v)`: auto-adds missing endpoints (with no
attribute), no-op on a present edge. -/
def OptGraph.addEdge (og : OptGraph N V) (u v : N) : OptGraph N V :=
  ⟨addKey (addKey og.nodes u) v,
   if (u, v) ∈ og.edges then og.edges else og.edges ++ [(u, v)]⟩

/-- Outgoing edge targets of `n` in the optimal-move graph. -/
def outEdges (og : OptGraph N V) (n : N) : List N :=
  og.edges.filterMap (fun e => if e.1 = n then some e.2 else none)

/-- Concatenation of mapped lists; used for the nested set comprehension
over predecessors in `_find_optimal_solution`. -/
def joinMap (f : N → List N) : List N → List N
  | [] => []
  | x :: xs => f x ++ joinMap f xs

/-- Result of `_get_optimal_move`: `err` models an uncaught exception
(`ValueError` from `max()` on an empty sequence, or a `KeyError`), `defer`
models the `(None, None)` return, `res v m` a computed value and optimal
move. -/
inductive MoveRes (N : Type u) (V : Type v) where
  | err : MoveRes N V
  | defer : MoveRes N V
  | res (v : V) (m : N) : MoveRes N V

deriving instance DecidableEq for MoveRes

namespace OnePlayer

variable {S : Type u} [DecidableEq S]

/-- First inner loop of `OnePlayerCombinatoricGame._create_game_graph`:
scan the next states of `state`; skip those already in the graph, add
terminal ones to the optimal-move graph with their score, collect the
non-terminal ones for the queue.  The third component records every
`(state, next_state)` argument pair on which `_get_final_score` is
invoked. -/
def scanNext (finalScore : S → S → Option Int) (g : DiGraph S) (state : S) :
    List S → OptGraph S Int → List (S × S) → List S × OptGraph S Int × List (S × S)
  | [], og, tr => ([], og, tr)
  | ns :: rest, og, tr =>
    if ns ∈ g.nodes then scanNext finalScore g state rest og tr
    else
      match finalScore state ns with
      | some pts =>
        scanNext finalScore g state rest (og.addNodeAttr ns pts) (tr ++ [(state, ns)])
      | none =>
        let r := scanNext finalScore g state rest og (tr ++ [(state, ns)])
        (ns :: r.1, r.2)

/-- Second inner loop of `_create_game_graph`: add an edge from `state` to
every next state. -/
def addEdges (g : DiGraph S) (state : S) (nss : List S) : DiGraph S :=
  nss.foldl (fun gr ns => gr.addEdge state ns) g

/-- The `while queue` loop of `_create_game_graph` (breadth-first search),
with explicit fuel.  `nextStates state` is the iteration list of the set
returned by `_return_next_states` (distinct elements). -/
def buildLoop (nextStates : S → List S) (finalScore : S → S → Option Int) :
    Nat → List S → DiGraph S → OptGraph S Int → List (S × S) →
    DiGraph S × OptGraph S Int × List (S × S)
  | 0, _, g, og, tr => (g, og, tr)
  | _ + 1, [], g, og, tr => (g, og, tr)
  | fuel + 1, state :: queue, g, og, tr =>
    let nss := nextStates state
    let r := scanNext finalScore g state nss og tr
    buildLoop nextStates finalScore fuel (queue ++ r.1) (addEdges g state nss) r.2.1 r.2.2

/-- `OnePlayerCombinatoricGame._create_game_graph`: start from the initial
state, which is added to the graph before the traversal loop. -/
def createGameGraph (init : S) (nextStates : S → List S)
    (finalScore : S → S → Option Int) (fuel : Nat) :
    DiGraph S × OptGraph S Int × List (S × S) :=
  buildLoop nextStates finalScore fuel [init] (DiGraph.addNode ⟨[], []⟩ init) ⟨[], []⟩ []

/-- The `max(...)` call of `OnePlayerCombinatoricGame._get_optimal_move`:
Python's `max` keeps the first element whose key is maximal, and raises
`ValueError` on an empty sequence; a missing `value` attribute is a
`KeyError`. -/
def maxPairs (og : OptGraph S Int) : List S → Option (Int × S) → MoveRes S Int
  | [], none => .err
  | [], some p => .res p.1 p.2
  | s :: rest, best =>
    match og.getAttr s with
    | none => .err
    | some v =>
      match best with
      | none => maxPairs og rest (some (v, s))
      | some (bv, bm) => maxPairs og rest (some (if bv < v then (v, s) else (bv, bm)))

/-- `OnePlayerCombinatoricGame._get_optimal_move`. -/
def getOptimalMove (g : DiGraph S) (og : OptGraph S Int) (node : S) : MoveRes S Int :=
  if (g.successors node).any (fun s => !(og.mem s)) then .defer
  else maxPairs og (g.successors node) none

end OnePlayer

namespace TwoPlayer

variable {S : Type u} [DecidableEq S]

/-- `1 if player == 2 else 2`. -/
def nextPlayer (p : Nat) : Nat :=
  if p = 2 then 1 else 2

/-- First inner loop of `TwoPlayerCombinatoricGame._create_game_graph`.
The third component records every `(player, state, next_state)` argument
triple on which `_get_winner` is invoked. -/
def scanNext (getWinner : Nat → S → S → Option Nat) (g : DiGraph (Nat × S))
    (player : Nat) (state : S) :
    List S → OptGraph (Nat × S) Nat → List (Nat × S × S) →
    List (Nat × S) × OptGraph (Nat × S) Nat × List (Nat × S × S)
  | [], og, tr => ([], og, tr)
  | ns :: rest, og, tr =>
    if (nextPlayer player, ns) ∈ g.nodes then scanNext getWinner g player state rest og tr
    else
      match getWinner player state ns with
      | some w =>
        if w = 0 ∨ w = 1 ∨ w = 2 then
          scanNext getWinner g player state rest
            (og.addNodeAttr (nextPlayer player, ns) w) (tr ++ [(player, state, ns)])
        else
          let r := scanNext getWinner g player state rest og (tr ++ [(player, state, ns)])
          ((nextPlayer player, ns) :: r.1, r.2)
      | none =>
        let r := scanNext getWinner g player state rest og (tr ++ [(player, state, ns)])
        ((nextPlayer player, ns) :: r.1, r.2)

/-- Second inner loop of `_create_game_graph`: edges from `(player, state)`
to every `(next_player, next_state)`. -/
def addEdges (g : DiGraph (Nat × S)) (player : Nat) (state : S) (nss : List S) :
    DiGraph (Nat × S) :=
  nss.foldl (fun gr ns => gr.addEdge (player, state) (nextPlayer player, ns)) g

/-- The `while queue` loop of `TwoPlayerCombinatoricGame._create_game_graph`. -/
def buildLoop (nextStates : Nat → S → List S) (getWinner : Nat → S → S → Option Nat) :
    Nat → List (Nat × S) → DiGraph (Nat × S) → OptGraph (Nat × S) Nat →
    List (Nat × S × S) →
    DiGraph (Nat × S) × OptGraph (Nat × S) Nat × List (Nat × S × S)
  | 0, _, g, og, tr => (g, og, tr)
  | _ + 1, [], g, og, tr => (g, og, tr)
  | fuel + 1, node :: queue, g, og, tr =>
    let nss := nextStates node.1 node.2
    let r := scanNext getWinner g node.1 node.2 nss og tr
    buildLoop nextStates getWinner fuel (queue ++ r.1) (addEdges g node.1 node.2 nss) r.2.1 r.2.2

/-- `TwoPlayerCombinatoricGame._create_game_graph`: the root node is
`(1, initial_state)`, added to the graph before the traversal loop. -/
def createGameGraph (init : S) (nextStates : Nat → S → List S)
    (getWinner : Nat → S → S → Option Nat) (fuel : Nat) :
    DiGraph (Nat × S) × OptGraph (Nat × S) Nat × List (Nat × S × S) :=
  buildLoop nextStates getWinner fuel [(1, init)]
    (DiGraph.addNode ⟨[], []⟩ (1, init)) ⟨[], []⟩ []

/-- The successor loop of `TwoPlayerCombinatoricGame._get_optimal_move`,
carrying the `best_move` dict (as an optional winner/move pair) and the
`unlabeled_successors` flag.  On exit with no unlabeled successor and an
empty `best_move`, reading `best_move['winner']` is a `KeyError`. -/
def scanSucc (og : OptGraph (Nat × S) Nat) (player other : Nat) :
    List (Nat × S) → Option (Nat × (Nat × S)) → Bool → MoveRes (Nat × S) Nat
  | [], best, unl =>
    if unl then .defer
    else
      match best with
      | some b => .res b.1 b.2
      | none => .err
  | s :: rest, best, unl =>
    if og.mem s then
      match og.getAttr s with
      | none => .err
      | some w =>
        if w = player then .res w s
        else if w = 0 then scanSucc og player other rest (some (w, s)) unl
        else
          if (match best with | some b => b.1 | none => other) = other then
            scanSucc og player other rest (some (w, s)) unl
          else scanSucc og player other rest best unl
    else scanSucc og player other rest best true

/-- `TwoPlayerCombinatoricGame._get_optimal_move`. -/
def getOptimalMove (g : DiGraph (Nat × S)) (og : OptGraph (Nat × S) Nat)
    (node : Nat × S) : MoveRes (Nat × S) Nat :=
  scanSucc og node.1 (if node.1 = 2 then 1 else 2) (g.successors node) none false

end TwoPlayer

/-- Candidate nodes of one round of `_find_optimal_solution`: the set of
predecessors of recently solved nodes that are not yet in the optimal-move
graph (`dedup` models the set construction). -/
def candidatesOf (g : DiGraph N) (og : OptGraph N V) (fr : List N) : List N :=
  ((joinMap (fun n => g.predecessors n) fr).filter (fun p => !(og.mem p))).dedup

/-- The `for candidate_node in candidate_nodes` loop of one round of
`_find_optimal_solution`, shared by both solver variants: `resolve` is the
variant's `_get_optimal_move` against the current optimal-move graph, and
`accept` is the variant's resolution test (`value is not None`, resp.
`winner in {0, 1, 2}`).  Returns the grown graph and the newly solved
nodes; `none` propagates an uncaught exception from `resolve`. -/
def roundFold (resolve : OptGraph N V → N → MoveRes N V) (accept : V → Bool) :
    List N → OptGraph N V → Option (OptGraph N V × List N)
  | [], og => some (og, [])
  | c :: cs, og =>
    match resolve og c with
    | .err => none
    | .defer => roundFold resolve accept cs og
    | .res v m =>
      if accept v then
        match roundFold resolve accept cs ((og.addNodeAttr c v).addEdge c m) with
        | none => none
        | some r => some (r.1, c :: r.2)
      else roundFold resolve accept cs og

/-- The `while new_solved_nodes` fixed-point loop of
`_find_optimal_solution`, with explicit fuel. -/
def solveLoop (resolve : OptGraph N V → N → MoveRes N V) (accept : V → Bool)
    (g : DiGraph N) : OptGraph N V → List N → Nat → Option (OptGraph N V)
  | og, _, 0 => some og
  | og, fr, fuel + 1 =>
    if fr = [] then some og
    else
      match roundFold resolve accept (candidatesOf g og fr) og with
      | none => none
      | some r => solveLoop resolve accept g r.1 r.2 fuel

/-- The list comprehension of `_get_optimal_next_nodes`: successors whose
attribute equals `v`; `none` models the `KeyError` on a successor without
the attribute. -/
def collectTied (og : OptGraph N V) (v : V) : List N → Option (List N)
  | [] => some []
  | s :: rest =>
    match og.getAttr s with
    | none => none
    | some w =>
      match collectTied og v rest with
      | none => none
      | some l => some (if v = w then s :: l else l)

/-- `_get_optimal_next_nodes` (both variants): all successors whose
attribute ties the node's own attribute. -/
def getOptimalNextNodes (g : DiGraph N) (og : OptGraph N V) (n : N) : Option (List N) :=
  match og.getAttr n with
  | none => none
  | some v => collectTied og v (g.successors n)

/-- The `keep_all_solutions` pass of `_find_optimal_solution`: for every
node of the move graph, add an edge to each of its optimal next nodes. -/
def keepAllPass (g : DiGraph N) : List N → OptGraph N V → Option (OptGraph N V)
  | [], og => some og
  | n :: rest, og =>
    match getOptimalNextNodes g og n with
    | none => none
    | some l => keepAllPass g rest (l.foldl (fun o m => o.addEdge n m) og)

/-- Failure modes of a solve run: `notSolvedException total solved` is the
`NotSolvedException` raised when the move graph and optimal-move graph
sizes differ, `ruleCrash` an uncaught `ValueError`/`KeyError`. -/
inductive SolveError where
  | notSolvedException (total : Nat) (solved : Nat) : SolveError
  | ruleCrash : SolveError

deriving instance DecidableEq for SolveError

/-- `_find_optimal_solution` (both variants share this structure): run the
fixed-point loop from the pre-labelled terminal nodes, raise
`NotSolvedException` when some move-graph node was never solved, then
optionally run the `keep_all_solutions` pass. -/
def findOptimalSolution (resolve : OptGraph N V → N → MoveRes N V) (accept : V → Bool)
    (g : DiGraph N) (og0 : OptGraph N V) (keepAll : Bool) (fuel : Nat) :
    Except SolveError (OptGraph N V) :=
  match solveLoop resolve accept g og0 og0.keys fuel with
  | none => .error .ruleCrash
  | some og =>
    if g.nodes.length ≠ og.nodes.length then
      .error (.notSolvedException g.nodes.length og.nodes.length)
    else if keepAll then
      match keepAllPass g g.nodes og with
      | none => .error .ruleCrash
      | some og2 => .ok og2
    else .ok og

/-- `value is not None`: the one-player resolution test always holds for a
computed result. -/
def opAccept : Int → Bool := fun _ => true

/-- `winner in {0, 1, 2}`: the two-player resolution test. -/
def tpAccept : Nat → Bool := fun w => decide (w = 0) || decide (w = 1) || decide (w = 2)

/-- Concatenation of mapped lists over arbitrary types (nested generator
comprehensions). -/
def listBind {α : Type u} {β : Type v} (f : α → List β) : List α → List β
  | [] => []
  | x :: xs => f x ++ listBind f xs

/-- Map a fallible function over a list, failing on the first failure
(a generator whose body can raise). -/
def mapOpt {α : Type u} {β : Type v} (f : α → Option β) : List α → Option (List β)
  | [] => some []
  | x :: xs =>
    match f x with
    | none => none
    | some y =>
      match mapOpt f xs with
      | none => none
      | some ys => some (y :: ys)

/-- Number of edges with source `n`. -/
def countKey : List (N × N) → N → Nat
  | [], _ => 0
  | e :: rest, n => (if e.1 = n then 1 else 0) + countKey rest n

/-- Number of occurrences of `n` in a list. -/
def countVal : List N → N → Nat
  | [], _ => 0
  | x :: rest, n => (if x = n then 1 else 0) + countVal rest n

/-- Every node of the optimal-move graph carries an attribute (no node was
implicitly added by `add_edge` alone). -/
def allAttrs (og : OptGraph N V) : Prop :=
  ∀ p ∈ og.nodes, (p.2).isSome = true

/-- Every edge source of the optimal-move graph is one of its nodes. -/
def srcClosed (og : OptGraph N V) : Prop :=
  ∀ e ∈ og.edges, e.1 ∈ og.keys

/-- Well-formedness of a move graph as produced by the build phase:
distinct nodes, edge endpoints among the nodes. -/
def GraphWF (g : DiGraph N) : Prop :=
  g.nodes.Nodup ∧ ∀ e ∈ g.edges, e.1 ∈ g.nodes ∧ e.2 ∈ g.nodes

/-- Well-formedness of an optimal-move graph relative to the move graph. -/
def OGWF (g : DiGraph N) (og : OptGraph N V) : Prop :=
  allAttrs og ∧ srcClosed og ∧ og.keys.Nodup ∧ ∀ k ∈ og.keys, k ∈ g.nodes

section BasicLemmas

instance decidableAllAttrs (og : OptGraph N V) : Decidable (allAttrs og) :=
  decidable_of_iff (∀ p ∈ og.nodes, (p.2).isSome = true) Iff.rfl

instance decidableSrcClosed (og : OptGraph N V) : Decidable (srcClosed og) :=
  decidable_of_iff (∀ e ∈ og.edges, e.1 ∈ og.keys) Iff.rfl

instance decidableGraphWF (g : DiGraph N) : Decidable (GraphWF g) :=
  decidable_of_iff (g.nodes.Nodup ∧ ∀ e ∈ g.edges, e.1 ∈ g.nodes ∧ e.2 ∈ g.nodes)
    Iff.rfl

theorem lookupNode_append_right {l1 l2 : List (N × Option V)} {n : N}
    (h : lookupNode l1 n = none) : lookupNode (l1 ++ l2) n = lookupNode l2 n := by
  induction l1 with
  | nil => simp
  | cons p rest ih =>
    by_cases hp : p.1 = n
    · simp [lookupNode, hp] at h
    · simp only [lookupNode, hp, if_false] at h ⊢
      exact ih h

theorem lookupNode_append_left {l1 l2 : List (N × Option V)} {n : N} {a : Option V}
    (h : lookupNode l1 n = some a) : lookupNode (l1 ++ l2) n = some a := by
  induction l1 with
  | nil => simp [lookupNode] at h
  | cons p rest ih =>
    by_cases hp : p.1 = n
    · simp only [lookupNode, hp, if_true] at h ⊢; exact h
    · simp only [lookupNode, hp, if_false] at h ⊢
      exact ih h

theorem lookupNode_mem {l : List (N × Option V)} {n : N} {a : Option V}
    (h : lookupNode l n = some a) : (n, a) ∈ l := by
  induction l with
  | nil => simp [lookupNode] at h
  | cons p rest ih =>
    by_cases hp : p.1 = n
    · simp only [lookupNode, hp, if_true, Option.some.injEq] at h
      have hpa : p = (n, a) := by cases p; simp_all
      rw [hpa]
      exact List.mem_cons_self _ _
    · simp only [lookupNode, hp, if_false] at h
      exact List.mem_cons_of_mem _ (ih h)

theorem lookupNode_isSome_iff_mem_keys {l : List (N × Option V)} {n : N} :
    (lookupNode l n).isSome = true ↔ n ∈ l.map Prod.fst := by
  induction l with
  | nil => simp [lookupNode]
  | cons p rest ih =>
    by_cases hp : p.1 = n
    · simp [lookupNode, hp]
    · simp only [lookupNode, hp, if_false, List.map_cons, List.mem_cons]
      rw [ih]
      constructor
      · exact fun h => Or.inr h
      · rintro (h | h)
        · exact absurd h.symm hp
        · exact h

theorem mem_iff_mem_keys {og : OptGraph N V} {n : N} :
    og.mem n = true ↔ n ∈ og.keys := lookupNode_isSome_iff_mem_keys

theorem getAttr_some_mem {og : OptGraph N V} {n : N} {v : V}
    (h : og.getAttr n = some v) : og.mem n = true := by
  unfold OptGraph.getAttr at h
  unfold OptGraph.mem
  cases hl : lookupNode og.nodes n with
  | none => rw [hl] at h; simp [Option.join] at h
  | some a => simp

theorem attr_of_mem_allAttrs {og : OptGraph N V} {n : N}
    (hall : allAttrs og) (h : og.mem n = true) : ∃ v, og.getAttr n = some v := by
  unfold OptGraph.mem at h
  cases hl : lookupNode og.nodes n with
  | none => rw [hl] at h; simp at h
  | some a =>
    have hmem := lookupNode_mem hl
    have := hall _ hmem
    simp only at this
    cases a with
    | none => simp at this
    | some v =>
      refine ⟨v, ?_⟩
      unfold OptGraph.getAttr
      rw [hl]
      rfl

theorem setAttr_of_not_mem {l : List (N × Option V)} {n : N} (v : V)
    (h : lookupNode l n = none) : setAttr l n v = l ++ [(n, some v)] := by
  induction l with
  | nil => simp [setAttr]
  | cons p rest ih =>
    by_cases hp : p.1 = n
    · simp [lookupNode, hp] at h
    · simp only [lookupNode, hp, if_false] at h
      simp [setAttr, hp, ih h]

theorem lookupNode_setAttr {l : List (N × Option V)} (n : N) (v : V) (m : N) :
    lookupNode (setAttr l n v) m = if m = n then some (some v) else lookupNode l m := by
  induction l with
  | nil =>
    by_cases hm : m = n
    · simp [setAttr, lookupNode, hm]
    · have : ¬ (n = m) := fun h => hm h.symm
      simp [setAttr, lookupNode, hm, this]
  | cons p rest ih =>
    by_cases hp : p.1 = n
    · by_cases hm : m = n
      · subst hm
        simp [setAttr, lookupNode, hp]
      · have hnm : ¬ (n = m) := fun h => hm h.symm
        have hpm : ¬ (p.1 = m) := by rw [hp]; exact hnm
        simp [setAttr, lookupNode, hp, hnm, hpm, hm]
    · by_cases hpm : p.1 = m
      · have hm : ¬ (m = n) := fun h => hp (hpm.trans h)
        simp [setAttr, lookupNode, hp, hpm, hm]
      · simp [setAttr, lookupNode, hp, hpm, ih]

theorem lookupNode_addKey {l : List (N × Option V)} (n m : N) :
    lookupNode (addKey l n) m =
      if (lookupNode l m).isSome then lookupNode l m
      else if m = n then some none else none := by
  unfold addKey
  by_cases hn : (lookupNode l n).isSome
  · simp only [hn, if_true]
    cases hm : lookupNode l m with
    | some a => simp [hm]
    | none =>
      simp only [hm, Option.isSome_none, Bool.false_eq_true, if_false]
      by_cases hmn : m = n
      · subst hmn; rw [hm] at hn; simp at hn
      · simp [hmn]
  · simp only [hn, Bool.false_eq_true, if_false]
    cases hm : lookupNode l m with
    | some a =>
      rw [lookupNode_append_left hm]
      simp [hm]
    | none =>
      rw [lookupNode_append_right hm]
      simp only [hm, Option.isSome_none, Bool.false_eq_true, if_false]
      by_cases hmn : m = n
      · subst hmn; simp [lookupNode]
      · have : ¬ (n = m) := fun h => hmn h.symm
        simp [lookupNode, this, hmn]

theorem join_lookupNode_addKey (l : List (N × Option V)) (n m : N) :
    (lookupNode (addKey l n) m).join = (lookupNode l m).join := by
  rw [lookupNode_addKey]
  cases hm : lookupNode l m with
  | some a => simp
  | none => by_cases hmn : m = n <;> simp [hmn, Option.join]

theorem getAttr_addEdge (og : OptGraph N V) (u v n : N) :
    (og.addEdge u v).getAttr n = og.getAttr n := by
  unfold OptGraph.addEdge OptGraph.getAttr
  simp only
  rw [join_lookupNode_addKey, join_lookupNode_addKey]

theorem addEdge_nodes_of_mem {og : OptGraph N V} {u v : N}
    (hu : og.mem u = true) (hv : og.mem v = true) :
    (og.addEdge u v).nodes = og.nodes := by
  unfold OptGraph.addEdge
  simp only
  unfold OptGraph.mem at hu hv
  unfold addKey
  simp [hu, hv]

theorem addEdge_edges (og : OptGraph N V) (u v : N) :
    (og.addEdge u v).edges =
      if (u, v) ∈ og.edges then og.edges else og.edges ++ [(u, v)] := rfl

theorem addEdge_edges_subset (og : OptGraph N V) (u v : N) {e : N × N}
    (h : e ∈ og.edges) : e ∈ (og.addEdge u v).edges := by
  rw [addEdge_edges]
  split <;> simp [h]

theorem addEdge_edges_self (og : OptGraph N V) (u v : N) :
    (u, v) ∈ (og.addEdge u v).edges := by
  rw [addEdge_edges]
  split <;> simp_all

theorem getAttr_addNodeAttr (og : OptGraph N V) (n : N) (v : V) (m : N) :
    (og.addNodeAttr n v).getAttr m = if m = n then some v else og.getAttr m := by
  unfold OptGraph.addNodeAttr OptGraph.getAttr
  simp only
  rw [lookupNode_setAttr]
  by_cases hm : m = n <;> simp [hm, Option.join]

theorem mem_addNodeAttr (og : OptGraph N V) (n : N) (v : V) (m : N) :
    (og.addNodeAttr n v).mem m = (decide (m = n) || og.mem m) := by
  unfold OptGraph.addNodeAttr OptGraph.mem
  simp only
  rw [lookupNode_setAttr]
  by_cases hm : m = n <;> simp [hm]

theorem addNodeAttr_edges (og : OptGraph N V) (n : N) (v : V) :
    (og.addNodeAttr n v).edges = og.edges := rfl

theorem addNodeAttr_nodes_fresh {og : OptGraph N V} {n : N} (v : V)
    (h : og.mem n = false) : (og.addNodeAttr n v).nodes = og.nodes ++ [(n, some v)] := by
  unfold OptGraph.addNodeAttr
  unfold OptGraph.mem at h
  simp only
  cases hl : lookupNode og.nodes n with
  | some a => rw [hl] at h; simp at h
  | none => rw [setAttr_of_not_mem v hl]

theorem keys_addNodeAttr_fresh {og : OptGraph N V} {n : N} (v : V)
    (h : og.mem n = false) : (og.addNodeAttr n v).keys = og.keys ++ [n] := by
  unfold OptGraph.keys
  rw [addNodeAttr_nodes_fresh v h]
  simp

theorem mem_successors {g : DiGraph N} {n m : N} :
    m ∈ g.successors n ↔ (n, m) ∈ g.edges := by
  unfold DiGraph.successors
  rw [List.mem_filterMap]
  constructor
  · rintro ⟨e, he, hfe⟩
    by_cases h1 : e.1 = n
    · simp only [h1, if_true, Option.some.injEq] at hfe
      cases e; simp_all
    · simp [h1] at hfe
  · intro h
    exact ⟨(n, m), h, by simp⟩

theorem mem_predecessors {g : DiGraph N} {n m : N} :
    m ∈ g.predecessors n ↔ (m, n) ∈ g.edges := by
  unfold DiGraph.predecessors
  rw [List.mem_filterMap]
  constructor
  · rintro ⟨e, he, hfe⟩
    by_cases h1 : e.2 = n
    · simp only [h1, if_true, Option.some.injEq] at hfe
      cases e; simp_all
    · simp [h1] at hfe
  · intro h
    exact ⟨(m, n), h, by simp⟩

theorem mem_joinMap {f : N → List N} {l : List N} {x : N} :
    x ∈ joinMap f l ↔ ∃ a ∈ l, x ∈ f a := by
  induction l with
  | nil => simp [joinMap]
  | cons y ys ih =>
    simp only [joinMap, List.mem_append, ih, List.mem_cons]
    constructor
    · rintro (h | ⟨a, ha, hx⟩)
      · exact ⟨y, Or.inl rfl, h⟩
      · exact ⟨a, Or.inr ha, hx⟩
    · rintro ⟨a, (rfl | ha), hx⟩
      · exact Or.inl hx
      · exact Or.inr ⟨a, ha, hx⟩

theorem mem_candidatesOf {g : DiGraph N} {og : OptGraph N V} {fr : List N} {c : N} :
    c ∈ candidatesOf g og fr ↔
      (∃ f ∈ fr, (c, f) ∈ g.edges) ∧ og.mem c = false := by
  unfold candidatesOf
  rw [List.mem_dedup, List.mem_filter]
  simp only [mem_joinMap, Bool.not_eq_true']
  constructor
  · rintro ⟨⟨f, hf, hc⟩, hm⟩
    exact ⟨⟨f, hf, mem_predecessors.mp hc⟩, hm⟩
  · rintro ⟨⟨f, hf, hc⟩, hm⟩
    exact ⟨⟨f, hf, mem_predecessors.mpr hc⟩, hm⟩

theorem nodup_candidatesOf (g : DiGraph N) (og : OptGraph N V) (fr : List N) :
    (candidatesOf g og fr).Nodup := List.nodup_dedup _

theorem countKey_append (l1 l2 : List (N × N)) (n : N) :
    countKey (l1 ++ l2) n = countKey l1 n + countKey l2 n := by
  induction l1 with
  | nil => simp [countKey]
  | cons e rest ih => simp [countKey, ih]; omega

theorem countKey_eq_countVal (es : List (N × N)) (n : N) :
    countKey es n = countVal (es.map Prod.fst) n := by
  induction es with
  | nil => rfl
  | cons e rest ih => simp [countKey, countVal, ih]

theorem countVal_eq_zero {l : List N} {n : N} (h : n ∉ l) : countVal l n = 0 := by
  induction l with
  | nil => rfl
  | cons x rest ih =>
    simp only [List.mem_cons, not_or] at h
    have : ¬ (x = n) := fun hx => h.1 hx.symm
    simp [countVal, this, ih h.2]

theorem countVal_eq_one {l : List N} {n : N} (hd : l.Nodup) (h : n ∈ l) :
    countVal l n = 1 := by
  induction l with
  | nil => simp at h
  | cons x rest ih =>
    rcases List.mem_cons.mp h with h1 | h1
    · subst h1
      have : n ∉ rest := (List.nodup_cons.mp hd).1
      simp [countVal, countVal_eq_zero this]
    · have hx : ¬ (x = n) := by
        rintro rfl
        exact (List.nodup_cons.mp hd).1 h1
      simp [countVal, hx, ih (List.nodup_cons.mp hd).2 h1]

theorem outEdges_countKey (og : OptGraph N V) (n : N) :
    (outEdges og n).length = countKey og.edges n := by
  unfold outEdges
  induction og.edges with
  | nil => rfl
  | cons e rest ih =>
    by_cases h : e.1 = n <;> simp [countKey, h, ih] <;> omega

end BasicLemmas

section ResolverLemmas

variable {S : Type u} [DecidableEq S]

theorem mem_false_getAttr {og : OptGraph N V} {s : N} (h : og.mem s = false) :
    og.getAttr s = none := by
  unfold OptGraph.mem at h
  unfold OptGraph.getAttr
  cases hl : lookupNode og.nodes s with
  | none => simp [Option.join]
  | some a => rw [hl] at h; simp at h

theorem maxPairs_spec (og : OptGraph S Int) :
    ∀ (ss : List S) (best : Option (Int × S)) (v : Int) (m : S),
      OnePlayer.maxPairs og ss best = .res v m →
      (∀ p, best = some p → og.getAttr p.2 = some p.1) →
      og.getAttr m = some v ∧ (m ∈ ss ∨ best = some (v, m)) ∧
        (∀ p, best = some p → p.1 ≤ v) ∧
        (∀ s ∈ ss, ∀ w, og.getAttr s = some w → w ≤ v) := by
  intro ss
  induction ss with
  | nil =>
    intro best v m hres hbest
    cases best with
    | none => simp [OnePlayer.maxPairs] at hres
    | some p =>
      simp only [OnePlayer.maxPairs, MoveRes.res.injEq] at hres
      obtain ⟨rfl, rfl⟩ := hres
      refine ⟨hbest p rfl, Or.inr rfl, ?_, by simp⟩
      intro q hq
      injection hq with hq
      rw [← hq]
  | cons s rest ih =>
    intro best v m hres hbest
    simp only [OnePlayer.maxPairs] at hres
    cases hattr : og.getAttr s with
    | none => rw [hattr] at hres; simp at hres
    | some w0 =>
      rw [hattr] at hres
      cases best with
      | none =>
        simp only at hres
        have hb : ∀ p, some (w0, s) = some p → og.getAttr p.2 = some p.1 := by
          rintro p hp
          injection hp with hp
          rw [← hp]
          exact hattr
        obtain ⟨h1, h2, h3, h4⟩ := ih (some (w0, s)) v m hres hb
        refine ⟨h1, ?_, by rintro p ⟨⟩, ?_⟩
        · rcases h2 with h2 | h2
          · exact Or.inl (List.mem_cons_of_mem _ h2)
          · injection h2 with h2
            have hsm : s = m := congrArg Prod.snd h2
            rw [← hsm]
            exact Or.inl (List.mem_cons_self _ _)
        · intro t ht w hw
          rcases List.mem_cons.mp ht with rfl | ht
          · rw [hattr] at hw
            injection hw with hw
            rw [← hw]
            exact h3 _ rfl
          · exact h4 t ht w hw
      | some b =>
        obtain ⟨bv, bm⟩ := b
        simp only at hres
        have hb : ∀ p, some (if bv < w0 then (w0, s) else (bv, bm)) = some p →
            og.getAttr p.2 = some p.1 := by
          rintro p hp
          injection hp with hp
          by_cases hlt : bv < w0
          · simp only [hlt, if_true] at hp
            rw [← hp]
            exact hattr
          · simp only [hlt, if_false] at hp
            rw [← hp]
            exact hbest (bv, bm) rfl
        obtain ⟨h1, h2, h3, h4⟩ := ih _ v m hres hb
        have hnewle : (if bv < w0 then ((w0 : Int), s) else (bv, bm)).1 ≤ v :=
          h3 _ rfl
        have hw0le : w0 ≤ v := by
          by_cases hlt : bv < w0
          · simpa [hlt] using hnewle
          · have : bv ≤ v := by simpa [hlt] using hnewle
            omega
        have hbvle : bv ≤ v := by
          by_cases hlt : bv < w0
          · omega
          · simpa [hlt] using hnewle
        refine ⟨h1, ?_, ?_, ?_⟩
        · rcases h2 with h2 | h2
          · exact Or.inl (List.mem_cons_of_mem _ h2)
          · by_cases hlt : bv < w0
            · simp only [hlt, if_true] at h2
              injection h2 with h2
              have hsm : s = m := congrArg Prod.snd h2
              rw [← hsm]
              exact Or.inl (List.mem_cons_self _ _)
            · simp only [hlt, if_false] at h2
              exact Or.inr h2
        · rintro p hp
          injection hp with hp
          rw [← hp]
          exact hbvle
        · intro t ht w hw
          rcases List.mem_cons.mp ht with rfl | ht
          · rw [hattr] at hw
            injection hw with hw
            omega
          · exact h4 t ht w hw

theorem maxPairs_total (og : OptGraph S Int) :
    ∀ (ss : List S) (best : Option (Int × S)),
      (∀ s ∈ ss, (og.getAttr s).isSome = true) →
      (ss ≠ [] ∨ best.isSome = true) →
      ∃ v m, OnePlayer.maxPairs og ss best = .res v m := by
  intro ss
  induction ss with
  | nil =>
    intro best _ hne
    cases best with
    | none => simp at hne
    | some p => exact ⟨p.1, p.2, rfl⟩
  | cons s rest ih =>
    intro best hall _
    have hs := hall s (List.mem_cons_self _ _)
    cases hattr : og.getAttr s with
    | none => rw [hattr] at hs; simp at hs
    | some w0 =>
      have hrest : ∀ t ∈ rest, (og.getAttr t).isSome = true :=
        fun t ht => hall t (List.mem_cons_of_mem _ ht)
      cases best with
      | none =>
        obtain ⟨v, m, hvm⟩ := ih (some (w0, s)) hrest (Or.inr rfl)
        exact ⟨v, m, by simp only [OnePlayer.maxPairs, hattr]; exact hvm⟩
      | some b =>
        obtain ⟨bv, bm⟩ := b
        obtain ⟨v, m, hvm⟩ := ih (some (if bv < w0 then (w0, s) else (bv, bm)))
          hrest (Or.inr rfl)
        exact ⟨v, m, by simp only [OnePlayer.maxPairs, hattr]; exact hvm⟩

theorem op_getOptimalMove_defer {g : DiGraph S} {og : OptGraph S Int} {node : S}
    (h : ∃ s ∈ g.successors node, og.mem s = false) :
    OnePlayer.getOptimalMove g og node = .defer := by
  unfold OnePlayer.getOptimalMove
  have : (g.successors node).any (fun s => !(og.mem s)) = true := by
    rw [List.any_eq_true]
    obtain ⟨s, hs, hm⟩ := h
    exact ⟨s, hs, by rw [hm]; rfl⟩
  simp [this]

theorem op_getOptimalMove_sound {g : DiGraph S} {og : OptGraph S Int} {node : S}
    {v : Int} {m : S} (h : OnePlayer.getOptimalMove g og node = .res v m) :
    og.getAttr m = some v ∧ m ∈ g.successors node ∧
      (∀ s ∈ g.successors node, ∀ w, og.getAttr s = some w → w ≤ v) := by
  unfold OnePlayer.getOptimalMove at h
  by_cases hany : (g.successors node).any (fun s => !(og.mem s)) = true
  · simp [hany] at h
  · rw [if_neg hany] at h
    obtain ⟨h1, h2, _, h4⟩ := maxPairs_spec og _ none v m h (by rintro p ⟨⟩)
    rcases h2 with h2 | h2
    · exact ⟨h1, h2, h4⟩
    · cases h2

theorem op_getOptimalMove_no_err {g : DiGraph S} {og : OptGraph S Int} {node : S}
    (hall : allAttrs og) (hne : g.successors node ≠ []) :
    OnePlayer.getOptimalMove g og node ≠ .err := by
  unfold OnePlayer.getOptimalMove
  by_cases hany : (g.successors node).any (fun s => !(og.mem s)) = true
  · simp [hany]
  · rw [if_neg hany]
    have hmem : ∀ s ∈ g.successors node, og.mem s = true := by
      intro s hs
      cases hb : og.mem s with
      | true => rfl
      | false =>
        exact absurd (List.any_eq_true.mpr ⟨s, hs, by rw [hb]; rfl⟩) hany
    have hattrs : ∀ s ∈ g.successors node, (og.getAttr s).isSome = true := by
      intro s hs
      obtain ⟨v, hv⟩ := attr_of_mem_allAttrs hall (hmem s hs)
      rw [hv]; rfl
    obtain ⟨v, m, hvm⟩ := maxPairs_total og _ none hattrs (Or.inl hne)
    rw [hvm]
    simp

theorem tpScan_sound (og : OptGraph (Nat × S) Nat) (p o : Nat) :
    ∀ (ss : List (Nat × S)) (best : Option (Nat × (Nat × S))) (unl : Bool)
      (w : Nat) (m : Nat × S),
      TwoPlayer.scanSucc og p o ss best unl = .res w m →
      (∀ b, best = some b → og.getAttr b.2 = some b.1) →
      og.getAttr m = some w ∧ (m ∈ ss ∨ best = some (w, m)) := by
  intro ss
  induction ss with
  | nil =>
    intro best unl w m hres hbest
    cases unl with
    | true => simp [TwoPlayer.scanSucc] at hres
    | false =>
      cases best with
      | none => simp [TwoPlayer.scanSucc] at hres
      | some b =>
        simp only [TwoPlayer.scanSucc, MoveRes.res.injEq] at hres
        obtain ⟨rfl, rfl⟩ := hres
        exact ⟨hbest b rfl, Or.inr rfl⟩
  | cons s rest ih =>
    intro best unl w m hres hbest
    simp only [TwoPlayer.scanSucc] at hres
    by_cases hm : og.mem s = true
    · rw [if_pos hm] at hres
      cases hattr : og.getAttr s with
      | none => rw [hattr] at hres; simp at hres
      | some w0 =>
        rw [hattr] at hres
        simp only at hres
        by_cases hw0 : w0 = p
        · simp only [hw0, if_pos rfl, MoveRes.res.injEq] at hres
          obtain ⟨rfl, rfl⟩ := hres
          rw [← hw0]
          exact ⟨hattr, Or.inl (List.mem_cons_self _ _)⟩
        · rw [if_neg hw0] at hres
          by_cases hz : w0 = 0
          · rw [if_pos hz] at hres
            have h := ih _ _ w m hres (by
              rintro b hb
              injection hb with hb
              rw [← hb]
              exact hattr)
            refine ⟨h.1, ?_⟩
            rcases h.2 with h2 | h2
            · exact Or.inl (List.mem_cons_of_mem _ h2)
            · injection h2 with h2
              have hsm : s = m := congrArg Prod.snd h2
              rw [← hsm]
              exact Or.inl (List.mem_cons_self _ _)
          · rw [if_neg hz] at hres
            cases best with
            | none =>
              simp only [if_pos rfl] at hres
              have h := ih _ _ w m hres (by
                rintro b hb
                injection hb with hb
                rw [← hb]
                exact hattr)
              refine ⟨h.1, ?_⟩
              rcases h.2 with h2 | h2
              · exact Or.inl (List.mem_cons_of_mem _ h2)
              · injection h2 with h2
                have hsm : s = m := congrArg Prod.snd h2
                rw [← hsm]
                exact Or.inl (List.mem_cons_self _ _)
            | some b =>
              simp only at hres
              by_cases hbo : b.1 = o
              · rw [if_pos hbo] at hres
                have h := ih _ _ w m hres (by
                  rintro b' hb
                  injection hb with hb
                  rw [← hb]
                  exact hattr)
                refine ⟨h.1, ?_⟩
                rcases h.2 with h2 | h2
                · exact Or.inl (List.mem_cons_of_mem _ h2)
                · injection h2 with h2
                  have hsm : s = m := congrArg Prod.snd h2
                  rw [← hsm]
                  exact Or.inl (List.mem_cons_self _ _)
              · rw [if_neg hbo] at hres
                have h := ih _ _ w m hres hbest
                exact ⟨h.1, h.2.imp (List.mem_cons_of_mem _) id⟩
    · rw [if_neg hm] at hres
      have h := ih _ _ w m hres hbest
      exact ⟨h.1, h.2.imp (List.mem_cons_of_mem _) id⟩

theorem scanSucc_nil_unl (og : OptGraph (Nat × S) Nat) (p o : Nat)
    (best : Option (Nat × (Nat × S))) :
    TwoPlayer.scanSucc og p o [] best true = .defer := rfl

theorem scanSucc_nil_some (og : OptGraph (Nat × S) Nat) (p o : Nat)
    (b : Nat × (Nat × S)) :
    TwoPlayer.scanSucc og p o [] (some b) false = .res b.1 b.2 := rfl

theorem scanSucc_nil_none (og : OptGraph (Nat × S) Nat) (p o : Nat) :
    TwoPlayer.scanSucc og p o [] none false = .err := rfl

theorem scanSucc_cons_unsolved {og : OptGraph (Nat × S) Nat} {p o : Nat}
    {s : Nat × S} {rest : List (Nat × S)} {best : Option (Nat × (Nat × S))} {unl : Bool}
    (h : og.mem s = false) :
    TwoPlayer.scanSucc og p o (s :: rest) best unl =
      TwoPlayer.scanSucc og p o rest best true := by
  simp [TwoPlayer.scanSucc, h]

theorem scanSucc_cons_win {og : OptGraph (Nat × S) Nat} {p o : Nat}
    {s : Nat × S} {rest : List (Nat × S)} {best : Option (Nat × (Nat × S))} {unl : Bool}
    (h : og.mem s = true) (ha : og.getAttr s = some p) :
    TwoPlayer.scanSucc og p o (s :: rest) best unl = .res p s := by
  simp [TwoPlayer.scanSucc, h, ha]

theorem scanSucc_cons_draw {og : OptGraph (Nat × S) Nat} {p o : Nat}
    {s : Nat × S} {rest : List (Nat × S)} {best : Option (Nat × (Nat × S))} {unl : Bool}
    (h : og.mem s = true) (ha : og.getAttr s = some 0) (h0p : (0 : Nat) ≠ p) :
    TwoPlayer.scanSucc og p o (s :: rest) best unl =
      TwoPlayer.scanSucc og p o rest (some (0, s)) unl := by
  simp [TwoPlayer.scanSucc, h, ha, h0p]

theorem scanSucc_cons_other_update {og : OptGraph (Nat × S) Nat} {p o : Nat}
    {s : Nat × S} {rest : List (Nat × S)} {best : Option (Nat × (Nat × S))} {unl : Bool}
    {w0 : Nat} (h : og.mem s = true) (ha : og.getAttr s = some w0)
    (h1 : w0 ≠ p) (h2 : w0 ≠ 0)
    (hb : best = none ∨ ∃ b, best = some b ∧ b.1 = o) :
    TwoPlayer.scanSucc og p o (s :: rest) best unl =
      TwoPlayer.scanSucc og p o rest (some (w0, s)) unl := by
  rcases hb with rfl | ⟨b, rfl, hbo⟩
  · simp [TwoPlayer.scanSucc, h, ha, h1, h2]
  · simp [TwoPlayer.scanSucc, h, ha, h1, h2, hbo]

theorem scanSucc_cons_other_keep {og : OptGraph (Nat × S) Nat} {p o : Nat}
    {s : Nat × S} {rest : List (Nat × S)} {best : Option (Nat × (Nat × S))} {unl : Bool}
    {w0 : Nat} (h : og.mem s = true) (ha : og.getAttr s = some w0)
    (h1 : w0 ≠ p) (h2 : w0 ≠ 0)
    (hb : ∃ b, best = some b ∧ b.1 ≠ o) :
    TwoPlayer.scanSucc og p o (s :: rest) best unl =
      TwoPlayer.scanSucc og p o rest best unl := by
  obtain ⟨b, rfl, hbo⟩ := hb
  simp [TwoPlayer.scanSucc, h, ha, h1, h2, hbo]

theorem tpScan_win (og : OptGraph (Nat × S) Nat) (p o : Nat) :
    ∀ (ss : List (Nat × S)) (best : Option (Nat × (Nat × S))) (unl : Bool),
      (∀ s ∈ ss, og.mem s = true → ∃ w, og.getAttr s = some w) →
      (∃ s ∈ ss, og.getAttr s = some p) →
      ∃ m, TwoPlayer.scanSucc og p o ss best unl = .res p m ∧ m ∈ ss ∧
        og.getAttr m = some p := by
  intro ss
  induction ss with
  | nil => rintro best unl _ ⟨s, hs, _⟩; simp at hs
  | cons s rest ih =>
    rintro best unl hall ⟨t, ht, hat⟩
    cases hm : og.mem s with
    | false =>
      rw [scanSucc_cons_unsolved hm]
      have htr : t ∈ rest := by
        rcases List.mem_cons.mp ht with rfl | htr
        · rw [getAttr_some_mem hat] at hm; cases hm
        · exact htr
      obtain ⟨m, h1, h2, h3⟩ := ih best true
        (fun u hu => hall u (List.mem_cons_of_mem _ hu)) ⟨t, htr, hat⟩
      exact ⟨m, h1, List.mem_cons_of_mem _ h2, h3⟩
    | true =>
      obtain ⟨w0, hw0⟩ := hall s (List.mem_cons_self _ _) hm
      by_cases hwp : w0 = p
      · subst hwp
        exact ⟨s, scanSucc_cons_win hm hw0, List.mem_cons_self _ _, hw0⟩
      · have htr : t ∈ rest := by
          rcases List.mem_cons.mp ht with rfl | htr
          · rw [hw0] at hat; injection hat with hat; exact absurd hat hwp
          · exact htr
        have hallr : ∀ u ∈ rest, og.mem u = true → ∃ w, og.getAttr u = some w :=
          fun u hu => hall u (List.mem_cons_of_mem _ hu)
        by_cases hz : w0 = 0
        · subst hz
          rw [scanSucc_cons_draw hm hw0 hwp]
          obtain ⟨m, h1, h2, h3⟩ := ih _ unl hallr ⟨t, htr, hat⟩
          exact ⟨m, h1, List.mem_cons_of_mem _ h2, h3⟩
        · cases best with
          | none =>
            rw [scanSucc_cons_other_update hm hw0 hwp hz (Or.inl rfl)]
            obtain ⟨m, h1, h2, h3⟩ := ih _ unl hallr ⟨t, htr, hat⟩
            exact ⟨m, h1, List.mem_cons_of_mem _ h2, h3⟩
          | some b =>
            by_cases hbo : b.1 = o
            · rw [scanSucc_cons_other_update hm hw0 hwp hz (Or.inr ⟨b, rfl, hbo⟩)]
              obtain ⟨m, h1, h2, h3⟩ := ih _ unl hallr ⟨t, htr, hat⟩
              exact ⟨m, h1, List.mem_cons_of_mem _ h2, h3⟩
            · rw [scanSucc_cons_other_keep hm hw0 hwp hz ⟨b, rfl, hbo⟩]
              obtain ⟨m, h1, h2, h3⟩ := ih _ unl hallr ⟨t, htr, hat⟩
              exact ⟨m, h1, List.mem_cons_of_mem _ h2, h3⟩

theorem tpScan_draw (og : OptGraph (Nat × S) Nat) (p o : Nat) (ho : o ≠ 0) :
    ∀ (ss : List (Nat × S)) (best : Option (Nat × (Nat × S))),
      (∀ s ∈ ss, ∃ w, og.getAttr s = some w ∧ w ≠ p) →
      ((∃ s ∈ ss, og.getAttr s = some 0) ∨
        ∃ m0, best = some (0, m0) ∧ og.getAttr m0 = some 0) →
      ∃ m, TwoPlayer.scanSucc og p o ss best false = .res 0 m ∧
        og.getAttr m = some 0 ∧ (m ∈ ss ∨ best = some (0, m)) := by
  intro ss
  induction ss with
  | nil =>
    rintro best _ (⟨s, hs, _⟩ | ⟨m0, rfl, hat⟩)
    · simp at hs
    · exact ⟨m0, scanSucc_nil_some og p o (0, m0), hat, Or.inr rfl⟩
  | cons s rest ih =>
    rintro best hall hinv
    obtain ⟨w0, hw0, hw0p⟩ := hall s (List.mem_cons_self _ _)
    have hm : og.mem s = true := getAttr_some_mem hw0
    have hallr : ∀ u ∈ rest, ∃ w, og.getAttr u = some w ∧ w ≠ p :=
      fun u hu => hall u (List.mem_cons_of_mem _ hu)
    by_cases hz : w0 = 0
    · subst hz
      rw [scanSucc_cons_draw hm hw0 hw0p]
      obtain ⟨m, h1, h2, h3⟩ := ih (some (0, s)) hallr (Or.inr ⟨s, rfl, hw0⟩)
      refine ⟨m, h1, h2, Or.inl ?_⟩
      rcases h3 with h3 | h3
      · exact List.mem_cons_of_mem _ h3
      · injection h3 with h3
        have hsm : s = m := congrArg Prod.snd h3
        rw [← hsm]
        exact List.mem_cons_self _ _
    · rcases hinv with ⟨t, ht, hat⟩ | ⟨m0, hbe, hat0⟩
      · have htr : t ∈ rest := by
          rcases List.mem_cons.mp ht with rfl | htr
          · rw [hw0] at hat; injection hat with hat; exact absurd hat hz
          · exact htr
        cases best with
        | none =>
          rw [scanSucc_cons_other_update hm hw0 hw0p hz (Or.inl rfl)]
          obtain ⟨m, h1, h2, h3⟩ := ih (some (w0, s)) hallr (Or.inl ⟨t, htr, hat⟩)
          refine ⟨m, h1, h2, Or.inl ?_⟩
          rcases h3 with h3 | h3
          · exact List.mem_cons_of_mem _ h3
          · injection h3 with h3
            have h0 : w0 = 0 := congrArg Prod.fst h3
            exact absurd h0 hz
        | some b =>
          by_cases hbo : b.1 = o
          · rw [scanSucc_cons_other_update hm hw0 hw0p hz (Or.inr ⟨b, rfl, hbo⟩)]
            obtain ⟨m, h1, h2, h3⟩ := ih (some (w0, s)) hallr (Or.inl ⟨t, htr, hat⟩)
            refine ⟨m, h1, h2, Or.inl ?_⟩
            rcases h3 with h3 | h3
            · exact List.mem_cons_of_mem _ h3
            · injection h3 with h3
              have h0 : w0 = 0 := congrArg Prod.fst h3
              exact absurd h0 hz
          · rw [scanSucc_cons_other_keep hm hw0 hw0p hz ⟨b, rfl, hbo⟩]
            obtain ⟨m, h1, h2, h3⟩ := ih (some b) hallr (Or.inl ⟨t, htr, hat⟩)
            exact ⟨m, h1, h2, h3.imp (List.mem_cons_of_mem _) id⟩
      · subst hbe
        rw [scanSucc_cons_other_keep hm hw0 hw0p hz
          ⟨(0, m0), rfl, fun h => ho h.symm⟩]
        obtain ⟨m, h1, h2, h3⟩ := ih _ hallr (Or.inr ⟨m0, rfl, hat0⟩)
        exact ⟨m, h1, h2, h3.imp (List.mem_cons_of_mem _) id⟩

theorem tpScan_lose (og : OptGraph (Nat × S) Nat) (p o : Nat)
    (hop : o ≠ p) (ho0 : o ≠ 0) :
    ∀ (ss : List (Nat × S)) (best : Option (Nat × (Nat × S))),
      (∀ s ∈ ss, og.getAttr s = some o) →
      (best = none ∨ ∃ m0, best = some (o, m0) ∧ og.getAttr m0 = some o) →
      (ss ≠ [] ∨ best ≠ none) →
      ∃ m, TwoPlayer.scanSucc og p o ss best false = .res o m ∧
        og.getAttr m = some o ∧ (m ∈ ss ∨ best = some (o, m)) := by
  intro ss
  induction ss with
  | nil =>
    rintro best _ hinv hne
    rcases hinv with rfl | ⟨m0, rfl, hat⟩
    · rcases hne with hne | hne
      · exact absurd rfl hne
      · exact absurd rfl hne
    · exact ⟨m0, scanSucc_nil_some og p o (o, m0), hat, Or.inr rfl⟩
  | cons s rest ih =>
    rintro best hall hinv _
    have hw0 : og.getAttr s = some o := hall s (List.mem_cons_self _ _)
    have hm : og.mem s = true := getAttr_some_mem hw0
    have hupd : TwoPlayer.scanSucc og p o (s :: rest) best false =
        TwoPlayer.scanSucc og p o rest (some (o, s)) false := by
      rcases hinv with rfl | ⟨m0, rfl, _⟩
      · exact scanSucc_cons_other_update hm hw0 hop ho0 (Or.inl rfl)
      · exact scanSucc_cons_other_update hm hw0 hop ho0 (Or.inr ⟨(o, m0), rfl, rfl⟩)
    rw [hupd]
    obtain ⟨m, h1, h2, h3⟩ := ih (some (o, s))
      (fun u hu => hall u (List.mem_cons_of_mem _ hu))
      (Or.inr ⟨s, rfl, hw0⟩) (Or.inr (by simp))
    refine ⟨m, h1, h2, Or.inl ?_⟩
    rcases h3 with h3 | h3
    · exact List.mem_cons_of_mem _ h3
    · injection h3 with h3
      have hsm : s = m := congrArg Prod.snd h3
      rw [← hsm]
      exact List.mem_cons_self _ _

theorem tpScan_defer_unl (og : OptGraph (Nat × S) Nat) (p o : Nat) :
    ∀ (ss : List (Nat × S)) (best : Option (Nat × (Nat × S))),
      (∀ s ∈ ss, og.mem s = true → ∃ w, og.getAttr s = some w ∧ w ≠ p) →
      TwoPlayer.scanSucc og p o ss best true = .defer := by
  intro ss
  induction ss with
  | nil => intro best _; rfl
  | cons s rest ih =>
    intro best hall
    have hallr : ∀ u ∈ rest, og.mem u = true → ∃ w, og.getAttr u = some w ∧ w ≠ p :=
      fun u hu => hall u (List.mem_cons_of_mem _ hu)
    cases hm : og.mem s with
    | false => rw [scanSucc_cons_unsolved hm]; exact ih best hallr
    | true =>
      obtain ⟨w0, hw0, hw0p⟩ := hall s (List.mem_cons_self _ _) hm
      by_cases hz : w0 = 0
      · subst hz
        rw [scanSucc_cons_draw hm hw0 hw0p]
        exact ih _ hallr
      · cases best with
        | none =>
          rw [scanSucc_cons_other_update hm hw0 hw0p hz (Or.inl rfl)]
          exact ih _ hallr
        | some b =>
          by_cases hbo : b.1 = o
          · rw [scanSucc_cons_other_update hm hw0 hw0p hz (Or.inr ⟨b, rfl, hbo⟩)]
            exact ih _ hallr
          · rw [scanSucc_cons_other_keep hm hw0 hw0p hz ⟨b, rfl, hbo⟩]
            exact ih _ hallr

theorem tpScan_defer_unsolved (og : OptGraph (Nat × S) Nat) (p o : Nat) :
    ∀ (ss : List (Nat × S)) (best : Option (Nat × (Nat × S))),
      (∀ s ∈ ss, og.mem s = true → ∃ w, og.getAttr s = some w ∧ w ≠ p) →
      (∃ s ∈ ss, og.mem s = false) →
      TwoPlayer.scanSucc og p o ss best false = .defer := by
  intro ss
  induction ss with
  | nil => rintro best _ ⟨s, hs, _⟩; simp at hs
  | cons s rest ih =>
    rintro best hall ⟨t, ht, hmt⟩
    have hallr : ∀ u ∈ rest, og.mem u = true → ∃ w, og.getAttr u = some w ∧ w ≠ p :=
      fun u hu => hall u (List.mem_cons_of_mem _ hu)
    cases hm : og.mem s with
    | false =>
      rw [scanSucc_cons_unsolved hm]
      exact tpScan_defer_unl og p o rest best hallr
    | true =>
      have htr : t ∈ rest := by
        rcases List.mem_cons.mp ht with rfl | htr
        · rw [hm] at hmt; cases hmt
        · exact htr
      obtain ⟨w0, hw0, hw0p⟩ := hall s (List.mem_cons_self _ _) hm
      by_cases hz : w0 = 0
      · subst hz
        rw [scanSucc_cons_draw hm hw0 hw0p]
        exact ih _ hallr ⟨t, htr, hmt⟩
      · cases best with
        | none =>
          rw [scanSucc_cons_other_update hm hw0 hw0p hz (Or.inl rfl)]
          exact ih _ hallr ⟨t, htr, hmt⟩
        | some b =>
          by_cases hbo : b.1 = o
          · rw [scanSucc_cons_other_update hm hw0 hw0p hz (Or.inr ⟨b, rfl, hbo⟩)]
            exact ih _ hallr ⟨t, htr, hmt⟩
          · rw [scanSucc_cons_other_keep hm hw0 hw0p hz ⟨b, rfl, hbo⟩]
            exact ih _ hallr ⟨t, htr, hmt⟩

theorem tpScan_no_err (og : OptGraph (Nat × S) Nat) (p o : Nat) :
    ∀ (ss : List (Nat × S)) (best : Option (Nat × (Nat × S))) (unl : Bool),
      (∀ s ∈ ss, og.mem s = true → ∃ w, og.getAttr s = some w) →
      (ss = [] → (best.isSome = true ∨ unl = true)) →
      TwoPlayer.scanSucc og p o ss best unl ≠ .err := by
  intro ss
  induction ss with
  | nil =>
    intro best unl _ hne
    rcases hne rfl with hb | hu
    · cases unl with
      | true => rw [scanSucc_nil_unl]; simp
      | false =>
        cases best with
        | none => simp at hb
        | some b => rw [scanSucc_nil_some]; simp
    · rw [hu, scanSucc_nil_unl]; simp
  | cons s rest ih =>
    intro best unl hall _
    have hallr : ∀ u ∈ rest, og.mem u = true → ∃ w, og.getAttr u = some w :=
      fun u hu => hall u (List.mem_cons_of_mem _ hu)
    cases hm : og.mem s with
    | false =>
      rw [scanSucc_cons_unsolved hm]
      exact ih best true hallr (fun _ => Or.inr rfl)
    | true =>
      obtain ⟨w0, hw0⟩ := hall s (List.mem_cons_self _ _) hm
      by_cases hwp : w0 = p
      · subst hwp
        rw [scanSucc_cons_win hm hw0]
        simp
      · by_cases hz : w0 = 0
        · subst hz
          rw [scanSucc_cons_draw hm hw0 hwp]
          exact ih _ unl hallr (fun _ => Or.inl rfl)
        · cases best with
          | none =>
            rw [scanSucc_cons_other_update hm hw0 hwp hz (Or.inl rfl)]
            exact ih _ unl hallr (fun _ => Or.inl rfl)
          | some b =>
            by_cases hbo : b.1 = o
            · rw [scanSucc_cons_other_update hm hw0 hwp hz (Or.inr ⟨b, rfl, hbo⟩)]
              exact ih _ unl hallr (fun _ => Or.inl rfl)
            · rw [scanSucc_cons_other_keep hm hw0 hwp hz ⟨b, rfl, hbo⟩]
              exact ih _ unl hallr (fun _ => Or.inl rfl)

theorem tp_getOptimalMove_sound {g : DiGraph (Nat × S)} {og : OptGraph (Nat × S) Nat}
    {node : Nat × S} {w : Nat} {m : Nat × S}
    (h : TwoPlayer.getOptimalMove g og node = .res w m) :
    og.getAttr m = some w ∧ m ∈ g.successors node := by
  unfold TwoPlayer.getOptimalMove at h
  obtain ⟨h1, h2⟩ := tpScan_sound og node.1 _ _ none false w m h (by rintro b ⟨⟩)
  rcases h2 with h2 | h2
  · exact ⟨h1, h2⟩
  · cases h2

theorem tp_getOptimalMove_no_err {g : DiGraph (Nat × S)} {og : OptGraph (Nat × S) Nat}
    {node : Nat × S} (hall : allAttrs og) (hne : g.successors node ≠ []) :
    TwoPlayer.getOptimalMove g og node ≠ .err := by
  unfold TwoPlayer.getOptimalMove
  refine tpScan_no_err og node.1 _ _ none false ?_ (fun h => absurd h hne)
  intro s _ hm
  exact attr_of_mem_allAttrs hall hm

end ResolverLemmas

section SolverLemmas

theorem mem_false_iff {og : OptGraph N V} {n : N} :
    og.mem n = false ↔ n ∉ og.keys := by
  rw [← mem_iff_mem_keys]
  cases og.mem n <;> simp

theorem countKey_eq_zero {es : List (N × N)} {n : N} (h : ∀ e ∈ es, e.1 ≠ n) :
    countKey es n = 0 := by
  induction es with
  | nil => rfl
  | cons e rest ih =>
    simp only [countKey, h e (List.mem_cons_self _ _), if_false]
    rw [ih (fun e' he' => h e' (List.mem_cons_of_mem _ he'))]

theorem countKey_zero_of_srcClosed {og : OptGraph N V} {n : N}
    (hs : srcClosed og) (h : n ∉ og.keys) : countKey og.edges n = 0 :=
  countKey_eq_zero (fun e he heq => h (heq ▸ hs e he))

theorem roundFold_nil (resolve : OptGraph N V → N → MoveRes N V) (accept : V → Bool)
    (og : OptGraph N V) : roundFold resolve accept [] og = some (og, []) := rfl

theorem roundFold_cons_err {resolve : OptGraph N V → N → MoveRes N V}
    {accept : V → Bool} {c : N} {cs : List N} {og : OptGraph N V}
    (hr : resolve og c = .err) :
    roundFold resolve accept (c :: cs) og = none := by
  simp [roundFold, hr]

theorem roundFold_cons_defer {resolve : OptGraph N V → N → MoveRes N V}
    {accept : V → Bool} {c : N} {cs : List N} {og : OptGraph N V}
    (hr : resolve og c = .defer) :
    roundFold resolve accept (c :: cs) og = roundFold resolve accept cs og := by
  simp [roundFold, hr]

theorem roundFold_cons_skip {resolve : OptGraph N V → N → MoveRes N V}
    {accept : V → Bool} {c : N} {cs : List N} {og : OptGraph N V} {v : V} {m : N}
    (hr : resolve og c = .res v m) (ha : accept v = false) :
    roundFold resolve accept (c :: cs) og = roundFold resolve accept cs og := by
  simp [roundFold, hr, ha]

theorem roundFold_cons_res {resolve : OptGraph N V → N → MoveRes N V}
    {accept : V → Bool} {c : N} {cs : List N} {og : OptGraph N V} {v : V} {m : N}
    (hr : resolve og c = .res v m) (ha : accept v = true) :
    roundFold resolve accept (c :: cs) og =
      match roundFold resolve accept cs ((og.addNodeAttr c v).addEdge c m) with
      | none => none
      | some r => some (r.1, c :: r.2) := by
  simp [roundFold, hr, ha]

/-- One round of the fixed-point loop over fresh, distinct candidates with
non-empty successor lists: it cannot raise, it appends exactly the newly
solved candidates to the optimal-move graph (each with its attribute and
one witness edge to a node carrying the same attribute), and it preserves
the attributes of the previously solved nodes. -/
theorem roundFold_spec {resolve : OptGraph N V → N → MoveRes N V} {accept : V → Bool}
    {g : DiGraph N}
    (hsound : ∀ (og : OptGraph N V) c v m, resolve og c = .res v m →
      og.getAttr m = some v)
    (hnoerr : ∀ (og : OptGraph N V) c, allAttrs og → g.successors c ≠ [] →
      resolve og c ≠ .err) :
    ∀ (cs : List N) (og : OptGraph N V),
      allAttrs og → srcClosed og → og.keys.Nodup →
      (∀ c ∈ cs, og.mem c = false) → cs.Nodup →
      (∀ c ∈ cs, g.successors c ≠ []) →
      ∃ og2 ns es,
        roundFold resolve accept cs og = some (og2, ns) ∧
        og2.keys = og.keys ++ ns ∧
        og2.edges = og.edges ++ es ∧
        es.map Prod.fst = ns ∧
        ns ⊆ cs ∧
        allAttrs og2 ∧ srcClosed og2 ∧ og2.keys.Nodup ∧
        (∀ n, og.mem n = true → og2.getAttr n = og.getAttr n) ∧
        (∀ e ∈ es, ∃ v, og2.getAttr e.1 = some v ∧ og2.getAttr e.2 = some v) := by
  intro cs
  induction cs with
  | nil =>
    intro og hall hsrc hnd _ _ _
    exact ⟨og, [], [], rfl, by simp, by simp, rfl, by simp,
      hall, hsrc, hnd, fun n _ => rfl, by simp⟩
  | cons c cs ih =>
    intro og hall hsrc hnd hfresh hcnd hsucc
    have hcsucc : g.successors c ≠ [] := hsucc c (List.mem_cons_self _ _)
    have hfr : ∀ x ∈ cs, og.mem x = false :=
      fun x hx => hfresh x (List.mem_cons_of_mem _ hx)
    have hcnd' : cs.Nodup := (List.nodup_cons.mp hcnd).2
    have hcnotin : c ∉ cs := (List.nodup_cons.mp hcnd).1
    have hsucc' : ∀ x ∈ cs, g.successors x ≠ [] :=
      fun x hx => hsucc x (List.mem_cons_of_mem _ hx)
    cases hr : resolve og c with
    | err => exact absurd hr (hnoerr og c hall hcsucc)
    | defer =>
      obtain ⟨og2, ns, es, h1, h2, h3, h4, h5, h6, h7, h8, h9, h10⟩ :=
        ih og hall hsrc hnd hfr hcnd' hsucc'
      exact ⟨og2, ns, es, by rw [roundFold_cons_defer hr]; exact h1,
        h2, h3, h4, fun x hx => List.mem_cons_of_mem _ (h5 hx),
        h6, h7, h8, h9, h10⟩
    | res v m =>
      cases hacc : accept v with
      | false =>
        obtain ⟨og2, ns, es, h1, h2, h3, h4, h5, h6, h7, h8, h9, h10⟩ :=
          ih og hall hsrc hnd hfr hcnd' hsucc'
        exact ⟨og2, ns, es, by rw [roundFold_cons_skip hr hacc]; exact h1,
          h2, h3, h4, fun x hx => List.mem_cons_of_mem _ (h5 hx),
          h6, h7, h8, h9, h10⟩
      | true =>
        have hmattr : og.getAttr m = some v := hsound og c v m hr
        have hmmem : og.mem m = true := getAttr_some_mem hmattr
        have hcfresh : og.mem c = false := hfresh c (List.mem_cons_self _ _)
        have hcnotkey : c ∉ og.keys := mem_false_iff.mp hcfresh
        have hmnec : m ≠ c := by
          intro h
          rw [h] at hmmem
          rw [hmmem] at hcfresh
          cases hcfresh
        have hmemc1 : (og.addNodeAttr c v).mem c = true := by
          rw [mem_addNodeAttr]; simp
        have hmemm1 : (og.addNodeAttr c v).mem m = true := by
          rw [mem_addNodeAttr]; simp [hmmem]
        have hnodes1 : ((og.addNodeAttr c v).addEdge c m).nodes =
            og.nodes ++ [(c, some v)] := by
          rw [addEdge_nodes_of_mem hmemc1 hmemm1, addNodeAttr_nodes_fresh v hcfresh]
        have hkeys1 : ((og.addNodeAttr c v).addEdge c m).keys = og.keys ++ [c] := by
          unfold OptGraph.keys
          rw [hnodes1]
          simp
        have hedges1 : ((og.addNodeAttr c v).addEdge c m).edges =
            og.edges ++ [(c, m)] := by
          rw [OptGraph.addEdge, addNodeAttr_edges]
          have : (c, m) ∉ og.edges := fun h => hcnotkey (hsrc (c, m) h)
          simp [this]
        have hattr1 : ∀ x, ((og.addNodeAttr c v).addEdge c m).getAttr x =
            if x = c then some v else og.getAttr x := by
          intro x
          rw [getAttr_addEdge, getAttr_addNodeAttr]
        have hmem1 : ∀ x, ((og.addNodeAttr c v).addEdge c m).mem x = true ↔
            (x = c ∨ x ∈ og.keys) := by
          intro x
          rw [mem_iff_mem_keys, hkeys1]
          simp [or_comm]
        have hall1 : allAttrs ((og.addNodeAttr c v).addEdge c m) := by
          intro p hp
          rw [hnodes1] at hp
          rcases List.mem_append.mp hp with hp | hp
          · exact hall p hp
          · simp at hp; rw [hp]; rfl
        have hsrc1 : srcClosed ((og.addNodeAttr c v).addEdge c m) := by
          intro e he
          rw [hedges1] at he
          rw [hkeys1]
          rcases List.mem_append.mp he with he | he
          · exact List.mem_append.mpr (Or.inl (hsrc e he))
          · simp only [List.mem_singleton] at he
            rw [he]
            simp
        have hnd1 : ((og.addNodeAttr c v).addEdge c m).keys.Nodup := by
          rw [hkeys1]
          rw [List.nodup_append]
          exact ⟨hnd, List.nodup_singleton c, by simpa using hcnotkey⟩
        have hfr1 : ∀ x ∈ cs, ((og.addNodeAttr c v).addEdge c m).mem x = false := by
          intro x hx
          cases hmx : ((og.addNodeAttr c v).addEdge c m).mem x with
          | false => rfl
          | true =>
            rcases (hmem1 x).mp hmx with rfl | hk
            · exact absurd hx hcnotin
            · exact absurd hk (mem_false_iff.mp (hfr x hx))
        obtain ⟨og2, ns, es, h1, h2, h3, h4, h5, h6, h7, h8, h9, h10⟩ :=
          ih ((og.addNodeAttr c v).addEdge c m) hall1 hsrc1 hnd1 hfr1 hcnd' hsucc'
        have hpresc : og2.getAttr c = some v := by
          rw [h9 c ((hmem1 c).mpr (Or.inl rfl)), hattr1]
          simp
        have hpresm : og2.getAttr m = some v := by
          rw [h9 m ((hmem1 m).mpr (Or.inr (mem_iff_mem_keys.mp hmmem))), hattr1]
          rw [if_neg hmnec]
          exact hmattr
        refine ⟨og2, c :: ns, (c, m) :: es, ?_, ?_, ?_, ?_, ?_, h6, h7, h8, ?_, ?_⟩
        · rw [roundFold_cons_res hr hacc, h1]
        · rw [h2, hkeys1]
          simp
        · rw [h3, hedges1]
          simp
        · simp [h4]
        · intro x hx
          rcases List.mem_cons.mp hx with rfl | hx
          · exact List.mem_cons_self _ _
          · exact List.mem_cons_of_mem _ (h5 hx)
        · intro n hn
          have hne : n ≠ c := by
            intro h
            rw [h, hcfresh] at hn
            cases hn
          rw [h9 n ((hmem1 n).mpr (Or.inr (mem_iff_mem_keys.mp hn))), hattr1,
            if_neg hne]
        · intro e he
          rcases List.mem_cons.mp he with rfl | he
          · exact ⟨v, hpresc, hpresm⟩
          · exact h10 e he

/-- Invariant of the optimal-move graph along the fixed-point loop,
relative to the build output `og0`: well-formed, monotone over `og0`,
attribute-stable, and every node solved after the build carries exactly
one outgoing witness edge to a node with the same attribute. -/
def SolveInv (g : DiGraph N) (og0 og : OptGraph N V) : Prop :=
  allAttrs og ∧ srcClosed og ∧ og.keys.Nodup ∧
  (∀ k ∈ og.keys, k ∈ g.nodes) ∧
  (∀ k ∈ og0.keys, k ∈ og.keys) ∧
  (∀ n, og0.mem n = true → og.getAttr n = og0.getAttr n) ∧
  (∀ n, countKey og.edges n =
    if n ∈ og.keys ∧ n ∉ og0.keys then 1 else countKey og0.edges n) ∧
  (∀ n ∈ og.keys, n ∉ og0.keys →
    ∃ m v, (n, m) ∈ og.edges ∧ og.getAttr n = some v ∧ og.getAttr m = some v)

theorem solveInv_init {g : DiGraph N} {og0 : OptGraph N V}
    (hall : allAttrs og0) (hsrc : srcClosed og0) (hnd : og0.keys.Nodup)
    (hsub : ∀ k ∈ og0.keys, k ∈ g.nodes) : SolveInv g og0 og0 :=
  ⟨hall, hsrc, hnd, hsub, fun _ hk => hk, fun _ _ => rfl,
    fun n => by rw [if_neg]; rintro ⟨hk, hk0⟩; exact hk0 hk,
    fun n hn hn0 => absurd hn hn0⟩

theorem candidatesOf_fresh {g : DiGraph N} {og : OptGraph N V} {fr : List N} :
    ∀ c ∈ candidatesOf g og fr, og.mem c = false :=
  fun _ hc => (mem_candidatesOf.mp hc).2

theorem candidatesOf_succ_ne {g : DiGraph N} {og : OptGraph N V} {fr : List N} :
    ∀ c ∈ candidatesOf g og fr, g.successors c ≠ [] := by
  intro c hc
  obtain ⟨⟨f, _, he⟩, _⟩ := mem_candidatesOf.mp hc
  exact List.ne_nil_of_mem (mem_successors.mpr he)

theorem candidatesOf_sub_nodes {g : DiGraph N} {og : OptGraph N V} {fr : List N}
    (hwf : GraphWF g) : ∀ c ∈ candidatesOf g og fr, c ∈ g.nodes := by
  intro c hc
  obtain ⟨⟨f, _, he⟩, _⟩ := mem_candidatesOf.mp hc
  exact (hwf.2 (c, f) he).1

/-- The fixed-point loop of `_find_optimal_solution` never raises and
preserves the solve invariant, for any fuel. -/
theorem solveLoop_spec {resolve : OptGraph N V → N → MoveRes N V} {accept : V → Bool}
    {g : DiGraph N} (hwf : GraphWF g)
    (hsound : ∀ (og : OptGraph N V) c v m, resolve og c = .res v m →
      og.getAttr m = some v)
    (hnoerr : ∀ (og : OptGraph N V) c, allAttrs og → g.successors c ≠ [] →
      resolve og c ≠ .err)
    {og0 : OptGraph N V} (hsrc0 : srcClosed og0) :
    ∀ (fuel : Nat) (og : OptGraph N V) (fr : List N),
      SolveInv g og0 og →
      ∃ og2, solveLoop resolve accept g og fr fuel = some og2 ∧ SolveInv g og0 og2 := by
  intro fuel
  induction fuel with
  | zero => intro og fr hinv; exact ⟨og, rfl, hinv⟩
  | succ fuel ih =>
    intro og fr hinv
    by_cases hfr : fr = []
    · exact ⟨og, by simp [solveLoop, hfr], hinv⟩
    · obtain ⟨hall, hsrc, hnd, hsub, hbase, hpres, hcount, hwit⟩ := hinv
      obtain ⟨og1, ns, es, h1, h2, h3, h4, h5, h6, h7, h8, h9, h10⟩ :=
        roundFold_spec hsound hnoerr (candidatesOf g og fr) og hall hsrc hnd
          candidatesOf_fresh (nodup_candidatesOf g og fr) candidatesOf_succ_ne
      have hnssub : ∀ x ∈ ns, x ∈ g.nodes :=
        fun x hx => candidatesOf_sub_nodes hwf x (h5 hx)
      have hnsdisj : ∀ x ∈ ns, x ∉ og.keys :=
        fun x hx => mem_false_iff.mp (candidatesOf_fresh x (h5 hx))
      have hnsnd : ns.Nodup := by
        have hx := h8
        rw [h2] at hx
        exact (List.nodup_append.mp hx).2.1
      have hmem1 : ∀ x, x ∈ og1.keys ↔ (x ∈ og.keys ∨ x ∈ ns) := by
        intro x
        rw [h2]
        exact List.mem_append
      have hinv1 : SolveInv g og0 og1 := by
        refine ⟨h6, h7, h8, ?_, ?_, ?_, ?_, ?_⟩
        · intro k hk
          rcases (hmem1 k).mp hk with hk | hk
          · exact hsub k hk
          · exact hnssub k hk
        · intro k hk
          exact (hmem1 k).mpr (Or.inl (hbase k hk))
        · intro n hn
          have hk : n ∈ og.keys := hbase n (mem_iff_mem_keys.mp hn)
          rw [h9 n (mem_iff_mem_keys.mpr hk)]
          exact hpres n hn
        · intro n
          have hstep : countKey og1.edges n = countKey og.edges n + countVal ns n := by
            rw [h3, countKey_append, countKey_eq_countVal es n, h4]
          by_cases hns : n ∈ ns
          · have hone : countVal ns n = 1 := countVal_eq_one hnsnd hns
            have hnot : n ∉ og.keys := hnsdisj n hns
            have hnot0 : n ∉ og0.keys := fun h => hnot (hbase n h)
            have hz : countKey og.edges n = 0 := by
              rw [hcount n, if_neg (fun h => hnot h.1)]
              exact countKey_zero_of_srcClosed hsrc0 hnot0
            rw [hstep, hz, hone, if_pos ⟨(hmem1 n).mpr (Or.inr hns), hnot0⟩]
          · have hzero : countVal ns n = 0 := countVal_eq_zero hns
            rw [hstep, hzero, Nat.add_zero, hcount n]
            by_cases hc : n ∈ og.keys ∧ n ∉ og0.keys
            · rw [if_pos hc, if_pos ⟨(hmem1 n).mpr (Or.inl hc.1), hc.2⟩]
            · rw [if_neg hc, if_neg]
              rintro ⟨hk1, hk0⟩
              rcases (hmem1 n).mp hk1 with hk | hk
              · exact hc ⟨hk, hk0⟩
              · exact hns hk
        · intro n hn hn0
          rcases (hmem1 n).mp hn with hk | hk
          · obtain ⟨m, v, hedge, ha1, ha2⟩ := hwit n hk hn0
            refine ⟨m, v, ?_, ?_, ?_⟩
            · rw [h3]; exact List.mem_append_left _ hedge
            · rw [h9 n (mem_iff_mem_keys.mpr hk)]; exact ha1
            · rw [h9 m (getAttr_some_mem ha2)]; exact ha2
          · rw [← h4] at hk
            obtain ⟨e, he, hfe⟩ := List.mem_map.mp hk
            obtain ⟨v, hv1, hv2⟩ := h10 e he
            refine ⟨e.2, v, ?_, ?_, hv2⟩
            · rw [h3]
              apply List.mem_append_right
              have hee : (n, e.2) = e := by
                cases e
                simp only at hfe
                rw [hfe]
              rw [hee]
              exact he
            · rw [← hfe]
              exact hv1
      obtain ⟨og2, hrec, hinv2⟩ := ih og1 ns hinv1
      refine ⟨og2, ?_, hinv2⟩
      simp only [solveLoop, hfr, if_false]
      rw [h1]
      exact hrec

theorem solveLoop_nil (resolve : OptGraph N V → N → MoveRes N V) (accept : V → Bool)
    (g : DiGraph N) (og : OptGraph N V) :
    ∀ fuel, solveLoop resolve accept g og [] fuel = some og := by
  intro fuel
  cases fuel with
  | zero => rfl
  | succ f => simp [solveLoop]

/-- Fuel stability: beyond `g.nodes.length + 1` units of fuel the loop's
result no longer depends on the fuel — the fixed point is reached. -/
theorem solveLoop_stable {resolve : OptGraph N V → N → MoveRes N V} {accept : V → Bool}
    {g : DiGraph N} (hwf : GraphWF g)
    (hsound : ∀ (og : OptGraph N V) c v m, resolve og c = .res v m →
      og.getAttr m = some v)
    (hnoerr : ∀ (og : OptGraph N V) c, allAttrs og → g.successors c ≠ [] →
      resolve og c ≠ .err) :
    ∀ (k : Nat) (og : OptGraph N V) (fr : List N),
      allAttrs og → srcClosed og → og.keys.Nodup → (∀ x ∈ og.keys, x ∈ g.nodes) →
      g.nodes.length - og.keys.length ≤ k →
      ∀ f1 f2, k + 1 ≤ f1 → k + 1 ≤ f2 →
      solveLoop resolve accept g og fr f1 = solveLoop resolve accept g og fr f2 := by
  intro k
  induction k with
  | zero =>
    intro og fr hall hsrc hnd hsub hk f1 f2 hf1 hf2
    cases f1 with
    | zero => omega
    | succ a =>
      cases f2 with
      | zero => omega
      | succ b =>
        by_cases hfr : fr = []
        · simp [solveLoop, hfr]
        · obtain ⟨og1, ns, es, h1, h2, h3, h4, h5, h6, h7, h8, h9, h10⟩ :=
            roundFold_spec hsound hnoerr (candidatesOf g og fr) og hall hsrc hnd
              candidatesOf_fresh (nodup_candidatesOf g og fr) candidatesOf_succ_ne
          have hred : ∀ f, solveLoop resolve accept g og fr (f + 1) =
              solveLoop resolve accept g og1 ns f := by
            intro f
            simp only [solveLoop, hfr, if_false]
            rw [h1]
          rw [hred a, hred b]
          by_cases hns : ns = []
          · rw [hns, solveLoop_nil, solveLoop_nil]
          · exfalso
            have hog1sub : og1.keys ⊆ g.nodes := by
              intro x hx
              rw [h2] at hx
              rcases List.mem_append.mp hx with hx | hx
              · exact hsub x hx
              · exact candidatesOf_sub_nodes hwf x (h5 hx)
            have hlen : og1.keys.length ≤ g.nodes.length :=
              List.Subperm.length_le (List.subperm_of_subset h8 hog1sub)
            have hlen1 : og1.keys.length = og.keys.length + ns.length := by
              rw [h2]; simp
            have hpos : 0 < ns.length := List.length_pos.mpr hns
            omega
  | succ k ih =>
    intro og fr hall hsrc hnd hsub hk f1 f2 hf1 hf2
    cases f1 with
    | zero => omega
    | succ a =>
      cases f2 with
      | zero => omega
      | succ b =>
        by_cases hfr : fr = []
        · simp [solveLoop, hfr]
        · obtain ⟨og1, ns, es, h1, h2, h3, h4, h5, h6, h7, h8, h9, h10⟩ :=
            roundFold_spec hsound hnoerr (candidatesOf g og fr) og hall hsrc hnd
              candidatesOf_fresh (nodup_candidatesOf g og fr) candidatesOf_succ_ne
          have hred : ∀ f, solveLoop resolve accept g og fr (f + 1) =
              solveLoop resolve accept g og1 ns f := by
            intro f
            simp only [solveLoop, hfr, if_false]
            rw [h1]
          rw [hred a, hred b]
          by_cases hns : ns = []
          · rw [hns, solveLoop_nil, solveLoop_nil]
          · have hog1sub : ∀ x ∈ og1.keys, x ∈ g.nodes := by
              intro x hx
              rw [h2] at hx
              rcases List.mem_append.mp hx with hx | hx
              · exact hsub x hx
              · exact candidatesOf_sub_nodes hwf x (h5 hx)
            have hlen : og1.keys.length ≤ g.nodes.length :=
              List.Subperm.length_le
                (List.subperm_of_subset h8 (fun x hx => hog1sub x hx))
            have hlen1 : og1.keys.length = og.keys.length + ns.length := by
              rw [h2]; simp
            have hpos : 0 < ns.length := List.length_pos.mpr hns
            exact ih og1 ns h6 h7 h8 hog1sub (by omega) a b (by omega) (by omega)

end SolverLemmas

section BuildLemmas

variable {S : Type u} [DecidableEq S]

theorem addNode_nodes_mono {g : DiGraph N} {n x : N} (h : x ∈ g.nodes) :
    x ∈ (g.addNode n).nodes := by
  unfold DiGraph.addNode
  split
  · exact h
  · exact List.mem_append_left _ h

theorem addEdge_nodes_mono {g : DiGraph N} {u v x : N} (h : x ∈ g.nodes) :
    x ∈ (g.addEdge u v).nodes := by
  by_cases he : (u, v) ∈ ((g.addNode u).addNode v).edges
  · simp only [DiGraph.addEdge, he, if_true]
    exact addNode_nodes_mono (addNode_nodes_mono h)
  · simp only [DiGraph.addEdge, he, if_false]
    exact addNode_nodes_mono (addNode_nodes_mono h)

theorem op_addEdges_nodes_mono {state : S} {x : S} :
    ∀ (nss : List S) (g : DiGraph S), x ∈ g.nodes →
      x ∈ (OnePlayer.addEdges g state nss).nodes := by
  intro nss
  induction nss with
  | nil => intro g h; exact h
  | cons ns rest ih =>
    intro g h
    exact ih _ (addEdge_nodes_mono h)

theorem tp_addEdges_nodes_mono {player : Nat} {state : S} {x : Nat × S} :
    ∀ (nss : List S) (g : DiGraph (Nat × S)), x ∈ g.nodes →
      x ∈ (TwoPlayer.addEdges g player state nss).nodes := by
  intro nss
  induction nss with
  | nil => intro g h; exact h
  | cons ns rest ih =>
    intro g h
    exact ih _ (addEdge_nodes_mono h)

theorem op_scanNext_trace {finalScore : S → S → Option Int} {g : DiGraph S}
    {state : S} :
    ∀ (nss : List S) (og : OptGraph S Int) (tr : List (S × S)),
      ∀ p ∈ (OnePlayer.scanNext finalScore g state nss og tr).2.2,
        p ∈ tr ∨ p.2 ∉ g.nodes := by
  intro nss
  induction nss with
  | nil => intro og tr p hp; exact Or.inl hp
  | cons ns rest ih =>
    intro og tr p hp
    simp only [OnePlayer.scanNext] at hp
    by_cases hg : ns ∈ g.nodes
    · rw [if_pos hg] at hp
      exact ih og tr p hp
    · rw [if_neg hg] at hp
      have hstep : ∀ (og' : OptGraph S Int),
          p ∈ (OnePlayer.scanNext finalScore g state rest og' (tr ++ [(state, ns)])).2.2 →
          p ∈ tr ∨ p.2 ∉ g.nodes := by
        intro og' hp'
        rcases ih og' (tr ++ [(state, ns)]) p hp' with hin | hout
        · rcases List.mem_append.mp hin with hin | hin
          · exact Or.inl hin
          · simp only [List.mem_singleton] at hin
            rw [hin]
            exact Or.inr hg
        · exact Or.inr hout
      cases hf : finalScore state ns with
      | some pts =>
        rw [hf] at hp
        exact hstep _ hp
      | none =>
        rw [hf] at hp
        exact hstep _ hp

theorem op_buildLoop_trace {nextStates : S → List S} {finalScore : S → S → Option Int}
    {init : S} :
    ∀ (fuel : Nat) (queue : List S) (g : DiGraph S) (og : OptGraph S Int)
      (tr : List (S × S)),
      init ∈ g.nodes → (∀ p ∈ tr, p.2 ≠ init) →
      ∀ p ∈ (OnePlayer.buildLoop nextStates finalScore fuel queue g og tr).2.2,
        p.2 ≠ init := by
  intro fuel
  induction fuel with
  | zero => intro queue g og tr _ htr p hp; exact htr p hp
  | succ fuel ih =>
    intro queue g og tr hinit htr p hp
    cases queue with
    | nil => exact htr p hp
    | cons state queue =>
      simp only [OnePlayer.buildLoop] at hp
      refine ih _ _ _ _ (op_addEdges_nodes_mono _ _ hinit) ?_ p hp
      intro q hq
      rcases op_scanNext_trace _ og tr q hq with hin | hout
      · exact htr q hin
      · exact fun h => hout (h ▸ hinit)

theorem tp_scanNext_trace {getWinner : Nat → S → S → Option Nat}
    {g : DiGraph (Nat × S)} {player : Nat} {state : S} :
    ∀ (nss : List S) (og : OptGraph (Nat × S) Nat) (tr : List (Nat × S × S)),
      ∀ p ∈ (TwoPlayer.scanNext getWinner g player state nss og tr).2.2,
        p ∈ tr ∨ (TwoPlayer.nextPlayer p.1, p.2.2) ∉ g.nodes := by
  intro nss
  induction nss with
  | nil => intro og tr p hp; exact Or.inl hp
  | cons ns rest ih =>
    intro og tr p hp
    simp only [TwoPlayer.scanNext] at hp
    by_cases hg : (TwoPlayer.nextPlayer player, ns) ∈ g.nodes
    · rw [if_pos hg] at hp
      exact ih og tr p hp
    · rw [if_neg hg] at hp
      have hstep : ∀ (og' : OptGraph (Nat × S) Nat),
          p ∈ (TwoPlayer.scanNext getWinner g player state rest og'
            (tr ++ [(player, state, ns)])).2.2 →
          p ∈ tr ∨ (TwoPlayer.nextPlayer p.1, p.2.2) ∉ g.nodes := by
        intro og' hp'
        rcases ih og' (tr ++ [(player, state, ns)]) p hp' with hin | hout
        · rcases List.mem_append.mp hin with hin | hin
          · exact Or.inl hin
          · simp only [List.mem_singleton] at hin
            rw [hin]
            exact Or.inr hg
        · exact Or.inr hout
      cases hf : getWinner player state ns with
      | some w =>
        rw [hf] at hp
        simp only at hp
        by_cases hw : w = 0 ∨ w = 1 ∨ w = 2
        · rw [if_pos hw] at hp
          exact hstep _ hp
        · rw [if_neg hw] at hp
          exact hstep _ hp
      | none =>
        rw [hf] at hp
        exact hstep _ hp

theorem tp_buildLoop_trace {nextStates : Nat → S → List S}
    {getWinner : Nat → S → S → Option Nat} {init : S} :
    ∀ (fuel : Nat) (queue : List (Nat × S)) (g : DiGraph (Nat × S))
      (og : OptGraph (Nat × S) Nat) (tr : List (Nat × S × S)),
      (1, init) ∈ g.nodes →
      (∀ p ∈ tr, (TwoPlayer.nextPlayer p.1, p.2.2) ≠ (1, init)) →
      ∀ p ∈ (TwoPlayer.buildLoop nextStates getWinner fuel queue g og tr).2.2,
        (TwoPlayer.nextPlayer p.1, p.2.2) ≠ (1, init) := by
  intro fuel
  induction fuel with
  | zero => intro queue g og tr _ htr p hp; exact htr p hp
  | succ fuel ih =>
    intro queue g og tr hinit htr p hp
    cases queue with
    | nil => exact htr p hp
    | cons node queue =>
      simp only [TwoPlayer.buildLoop] at hp
      refine ih _ _ _ _ (tp_addEdges_nodes_mono _ _ hinit) ?_ p hp
      intro q hq
      rcases tp_scanNext_trace _ og tr q hq with hin | hout
      · exact htr q hin
      · exact fun h => hout (h ▸ hinit)

end BuildLemmas

namespace TrianglePegBoard

/-- `TrianglePegBoard._row_moves`: all jump moves within one row.  Each
window of three cells equal to `[1,1,0]` or `[0,1,1]` yields the row with
that window replaced by `[0,0,1]` resp. `[1,0,0]`. -/
def rowMoves (row : List Nat) : List (List Nat) :=
  (List.range (row.length - 2)).filterMap (fun idx =>
    let c := (row.drop idx).take 3
    if c = [1, 1, 0] then some (row.take idx ++ [0, 0, 1] ++ row.drop (idx + 3))
    else if c = [0, 1, 1] then some (row.take idx ++ [1, 0, 0] ++ row.drop (idx + 3))
    else none)

/-- `TrianglePegBoard._state_list`: split the flat state into rows of
sizes `1, 2, ..., N`, keeping a running start index. -/
def stateList (nBase : Nat) (s : List Nat) : List (List Nat) :=
  ((List.range nBase).foldl
    (fun (acc : List (List Nat) × Nat) i =>
      (acc.1 ++ [(s.drop acc.2).take (i + 1)], acc.2 + (i + 1)))
    ([], 0)).1

/-- `TrianglePegBoard._all_rotation_lists`: the 0, 120 and 240 degree
rotations of the board.  `xrange(N-1, -1, -1)` is `[N-1, ..., 0]` and
`xrange(N, 0, -1)` is `[N, ..., 1]`; `row[idx]` guarded by `len(row) > idx`
and `row[-idx]` guarded by `len(row) >= idx` become guarded lookups. -/
def allRotationLists (nBase : Nat) (sl : List (List Nat)) : List (List (List Nat)) :=
  [sl.map (fun r => r),
   ((List.range nBase).reverse).map (fun idx => sl.filterMap (fun row => row.get? idx)),
   ((List.range nBase).reverse).map (fun j =>
     (sl.reverse).filterMap (fun row =>
       if j + 1 ≤ row.length then row.get? (row.length - (j + 1)) else none))]

/-- `TrianglePegBoard._iter_next_state_lists`: for every rotation, for
every row from index 2 on, for every row move, the rotated state with that
row replaced. -/
def iterNextStateLists (nBase : Nat) (s : List Nat) : List (List (List Nat)) :=
  listBind
    (fun rot =>
      listBind
        (fun j =>
          match rot.get? (j + 2) with
          | some row =>
            (rowMoves row).map (fun newRow => rot.take (j + 2) ++ [newRow] ++ rot.drop (j + 3))
          | none => [])
        (List.range (rot.length - 2)))
    (allRotationLists nBase (stateList nBase s))

/-- `TrianglePegBoard._get_final_score`: `None` when a move exists from
the candidate next state, otherwise minus the number of remaining pegs.
The first argument (the predecessor state) is ignored by the source. -/
def getFinalScore (nBase : Nat) (_st ns : List Nat) : Option Int :=
  if iterNextStateLists nBase ns = [] then some (-(ns.sum : Int)) else none

/-- Model of `TrianglePegBoard._state_tuple`: its body calls
`_all_transformation_lists`, whose own body reads the undefined name
`state_lists` (the parameter is `state_list`), so every call raises
`NameError`; the call therefore never produces a value. -/
def stateTuple (_nBase : Nat) (_sl : List (List Nat)) : Option (List Nat) :=
  none

/-- `TrianglePegBoard._return_next_states`: a set comprehension applying
`_state_tuple` to every next state list; with no next state list it yields
the empty set without ever calling `_state_tuple`, otherwise the first
call raises (modelled by `mapOpt`). -/
def returnNextStates (nBase : Nat) (s : List Nat) : Option (List (List Nat)) :=
  mapOpt (stateTuple nBase) (iterNextStateLists nBase s)

/-- The initial state under the intended grouping of
`(0,) + (1,)*self._N_base*(self._N_base+1)/2`: an empty top hole followed
by `N(N+1)/2` pegs.  The literal source expression parses as
`((1,)*N*(N+1))/2` — a tuple divided by an integer — and raises
`TypeError` for every `N`, so `_return_initial_state` never returns. -/
def initialStateIntended (nBase : Nat) : List Nat :=
  0 :: List.replicate (nBase * (nBase + 1) / 2) 1

/-- For a board of side 1 the state splits into a single row, every
rotation has a single row, and rows from index 2 on do not exist, so no
move is ever generated. -/
theorem iterNextStateLists_one (s : List Nat) : iterNextStateLists 1 s = [] := by
  simp [iterNextStateLists, allRotationLists, stateList, listBind, List.range_succ,
    List.range_zero]

theorem returnNextStates_one (s : List Nat) : returnNextStates 1 s = some [] := by
  unfold returnNextStates
  rw [iterNextStateLists_one]
  rfl

end TrianglePegBoard

section PassLemmas

theorem mem_congr {og1 og2 : OptGraph N V} (h : og1.nodes = og2.nodes) (n : N) :
    og1.mem n = og2.mem n := by
  unfold OptGraph.mem
  rw [h]

theorem getAttr_congr {og1 og2 : OptGraph N V} (h : og1.nodes = og2.nodes) (n : N) :
    og1.getAttr n = og2.getAttr n := by
  unfold OptGraph.getAttr
  rw [h]

theorem keys_congr {og1 og2 : OptGraph N V} (h : og1.nodes = og2.nodes) :
    og1.keys = og2.keys := by
  unfold OptGraph.keys
  rw [h]

theorem collectTied_spec (og : OptGraph N V) (v : V) :
    ∀ (ss : List N), (∀ s ∈ ss, (og.getAttr s).isSome = true) →
      ∃ l, collectTied og v ss = some l ∧
        ∀ s, s ∈ l ↔ (s ∈ ss ∧ og.getAttr s = some v) := by
  intro ss
  induction ss with
  | nil => intro _; exact ⟨[], rfl, by simp⟩
  | cons s rest ih =>
    intro hall
    have hs := hall s (List.mem_cons_self _ _)
    cases hattr : og.getAttr s with
    | none => rw [hattr] at hs; cases hs
    | some w =>
      obtain ⟨l, hl, hiff⟩ := ih (fun t ht => hall t (List.mem_cons_of_mem _ ht))
      by_cases hvw : v = w
      · subst hvw
        refine ⟨s :: l, ?_, ?_⟩
        · simp [collectTied, hattr, hl]
        · intro t
          simp only [List.mem_cons, hiff]
          constructor
          · rintro (rfl | ⟨ht, hat⟩)
            · exact ⟨Or.inl rfl, hattr⟩
            · exact ⟨Or.inr ht, hat⟩
          · rintro ⟨rfl | ht, hat⟩
            · exact Or.inl rfl
            · exact Or.inr ⟨ht, hat⟩
      · refine ⟨l, ?_, ?_⟩
        · simp [collectTied, hattr, hl, hvw]
        · intro t
          rw [hiff]
          constructor
          · rintro ⟨ht, hat⟩
            exact ⟨List.mem_cons_of_mem _ ht, hat⟩
          · rintro ⟨ht, hat⟩
            rcases List.mem_cons.mp ht with rfl | ht
            · rw [hattr] at hat
              injection hat with hat
              exact absurd hat.symm hvw
            · exact ⟨ht, hat⟩

theorem foldAddEdge_spec {n : N} :
    ∀ (l : List N) (og : OptGraph N V),
      og.mem n = true → (∀ m ∈ l, og.mem m = true) →
      (l.foldl (fun o m => o.addEdge n m) og).nodes = og.nodes ∧
      (∀ e ∈ og.edges, e ∈ (l.foldl (fun o m => o.addEdge n m) og).edges) ∧
      (∀ m ∈ l, (n, m) ∈ (l.foldl (fun o m => o.addEdge n m) og).edges) := by
  intro l
  induction l with
  | nil => intro og _ _; exact ⟨rfl, fun e he => he, by simp⟩
  | cons m rest ih =>
    intro og hn hm
    have hmm : og.mem m = true := hm m (List.mem_cons_self _ _)
    have hnodes : (og.addEdge n m).nodes = og.nodes := addEdge_nodes_of_mem hn hmm
    have hn1 : (og.addEdge n m).mem n = true := by rw [mem_congr hnodes]; exact hn
    have hm1 : ∀ x ∈ rest, (og.addEdge n m).mem x = true := by
      intro x hx
      rw [mem_congr hnodes]
      exact hm x (List.mem_cons_of_mem _ hx)
    obtain ⟨ih1, ih2, ih3⟩ := ih (og.addEdge n m) hn1 hm1
    refine ⟨by rw [List.foldl_cons, ih1, hnodes], ?_, ?_⟩
    · intro e he
      rw [List.foldl_cons]
      exact ih2 e (addEdge_edges_subset og n m he)
    · intro x hx
      rw [List.foldl_cons]
      rcases List.mem_cons.mp hx with rfl | hx
      · exact ih2 _ (addEdge_edges_self og n x)
      · exact ih3 x hx

theorem keepAllPass_spec {g : DiGraph N} :
    ∀ (ls : List N) (og : OptGraph N V),
      allAttrs og →
      (∀ n ∈ ls, n ∈ og.keys) →
      (∀ n ∈ ls, ∀ s ∈ g.successors n, s ∈ og.keys) →
      ∃ og2, keepAllPass g ls og = some og2 ∧ og2.nodes = og.nodes ∧
        (∀ e ∈ og.edges, e ∈ og2.edges) ∧
        (∀ n ∈ ls, ∀ s ∈ g.successors n, og.getAttr s = og.getAttr n →
          (n, s) ∈ og2.edges) := by
  intro ls
  induction ls with
  | nil =>
    intro og hall _ _
    exact ⟨og, rfl, rfl, fun e he => he, by simp⟩
  | cons n rest ih =>
    intro og hall hkeys hsuccs
    have hnattr : ∃ v, og.getAttr n = some v :=
      attr_of_mem_allAttrs hall
        (mem_iff_mem_keys.mpr (hkeys n (List.mem_cons_self _ _)))
    obtain ⟨v, hv⟩ := hnattr
    have hsattrs : ∀ s ∈ g.successors n, (og.getAttr s).isSome = true := by
      intro s hs
      obtain ⟨w, hw⟩ := attr_of_mem_allAttrs hall
        (mem_iff_mem_keys.mpr (hsuccs n (List.mem_cons_self _ _) s hs))
      rw [hw]
      rfl
    obtain ⟨l, hl, hiff⟩ := collectTied_spec og v (g.successors n) hsattrs
    have hopt : getOptimalNextNodes g og n = some l := by
      simp only [getOptimalNextNodes, hv, hl]
    have hlmem : ∀ m ∈ l, og.mem m = true := by
      intro m hm
      exact mem_iff_mem_keys.mpr
        (hsuccs n (List.mem_cons_self _ _) m ((hiff m).mp hm).1)
    obtain ⟨hfn, hfe, hfp⟩ := foldAddEdge_spec l og
      (mem_iff_mem_keys.mpr (hkeys n (List.mem_cons_self _ _))) hlmem
    have hall1 : allAttrs (l.foldl (fun o m => o.addEdge n m) og) := by
      intro p hp
      rw [hfn] at hp
      exact hall p hp
    have hkeys1 : (l.foldl (fun o m => o.addEdge n m) og).keys = og.keys :=
      keys_congr hfn
    obtain ⟨og2, hp2, hn2, he2, ht2⟩ := ih (l.foldl (fun o m => o.addEdge n m) og)
      hall1
      (fun x hx => hkeys1 ▸ hkeys x (List.mem_cons_of_mem _ hx))
      (fun x hx s hs => hkeys1 ▸ hsuccs x (List.mem_cons_of_mem _ hx) s hs)
    refine ⟨og2, ?_, by rw [hn2, hfn], ?_, ?_⟩
    · simp only [keepAllPass, hopt]
      exact hp2
    · intro e he
      exact he2 e (hfe e he)
    · intro x hx s hs htie
      rcases List.mem_cons.mp hx with rfl | hx
      · refine he2 _ (hfp s ((hiff s).mpr ⟨hs, ?_⟩))
        rw [htie, hv]
      · refine ht2 x hx s hs ?_
        rw [getAttr_congr hfn, getAttr_congr hfn]
        exact htie

theorem keys_length_eq (og : OptGraph N V) : og.keys.length = og.nodes.length := by
  unfold OptGraph.keys
  rw [List.length_map]

/-- Dichotomy of `_find_optimal_solution`: from a well-formed build output
it either returns an optimal-move graph covering every move-graph node
(equal node counts), or raises `NotSolvedException` carrying the move
graph size and the strictly smaller number of solved nodes; it never
raises anything else. -/
theorem findOptimalSolution_dichotomy {resolve : OptGraph N V → N → MoveRes N V}
    {accept : V → Bool} {g : DiGraph N} {og0 : OptGraph N V}
    (hwf : GraphWF g)
    (hsound : ∀ (og : OptGraph N V) c v m, resolve og c = .res v m →
      og.getAttr m = some v)
    (hnoerr : ∀ (og : OptGraph N V) c, allAttrs og → g.successors c ≠ [] →
      resolve og c ≠ .err)
    (hall0 : allAttrs og0) (hsrc0 : srcClosed og0) (hnd0 : og0.keys.Nodup)
    (hsub0 : ∀ k ∈ og0.keys, k ∈ g.nodes) (keepAll : Bool) (fuel : Nat) :
    (∃ og2, findOptimalSolution resolve accept g og0 keepAll fuel = .ok og2 ∧
      (∀ n ∈ g.nodes, og2.mem n = true) ∧
      g.nodes.length = og2.nodes.length) ∨
    (∃ s, findOptimalSolution resolve accept g og0 keepAll fuel =
      .error (.notSolvedException g.nodes.length s) ∧ s < g.nodes.length) := by
  obtain ⟨og1, hloop, hinv⟩ := solveLoop_spec hwf hsound hnoerr hsrc0 fuel og0
    og0.keys (solveInv_init hall0 hsrc0 hnd0 hsub0)
  obtain ⟨hall1, hsrc1, hnd1, hsub1, _, _, _, _⟩ := hinv
  have hsp : List.Subperm og1.keys g.nodes :=
    List.subperm_of_subset hnd1 (fun x hx => hsub1 x hx)
  have hle : og1.keys.length ≤ g.nodes.length := hsp.length_le
  have hkl : og1.keys.length = og1.nodes.length := keys_length_eq og1
  by_cases hsz : g.nodes.length ≠ og1.nodes.length
  · right
    refine ⟨og1.nodes.length, ?_, by omega⟩
    unfold findOptimalSolution
    rw [hloop]
    show (if g.nodes.length ≠ og1.nodes.length then
        Except.error (SolveError.notSolvedException g.nodes.length og1.nodes.length)
      else if keepAll = true then
        match keepAllPass g g.nodes og1 with
        | none => Except.error SolveError.ruleCrash
        | some o => Except.ok o
      else Except.ok og1) =
      Except.error (SolveError.notSolvedException g.nodes.length og1.nodes.length)
    rw [if_pos hsz]
  · rw [not_ne_iff] at hsz
    have hperm : List.Perm og1.keys g.nodes := hsp.perm_of_length_le (by omega)
    have hmemall : ∀ n ∈ g.nodes, og1.mem n = true :=
      fun n hn => mem_iff_mem_keys.mpr (hperm.mem_iff.mpr hn)
    left
    cases keepAll with
    | false =>
      refine ⟨og1, ?_, hmemall, hsz⟩
      unfold findOptimalSolution
      rw [hloop]
      show (if g.nodes.length ≠ og1.nodes.length then
          Except.error (SolveError.notSolvedException g.nodes.length og1.nodes.length)
        else Except.ok og1) = Except.ok og1
      rw [if_neg (by omega)]
    | true =>
      obtain ⟨og2, hpass, hnodes2, _, _⟩ := keepAllPass_spec g.nodes og1 hall1
        (fun n hn => mem_iff_mem_keys.mp (hmemall n hn))
        (fun n _ s hs => mem_iff_mem_keys.mp
          (hmemall s (hwf.2 (n, s) (mem_successors.mp hs)).2))
      refine ⟨og2, ?_, ?_, ?_⟩
      · unfold findOptimalSolution
        rw [hloop]
        show (if g.nodes.length ≠ og1.nodes.length then
            Except.error (SolveError.notSolvedException g.nodes.length og1.nodes.length)
          else match keepAllPass g g.nodes og1 with
            | none => Except.error SolveError.ruleCrash
            | some o => Except.ok o) = Except.ok og2
        rw [if_neg (by omega), hpass]
      · intro n hn
        rw [mem_congr hnodes2]
        exact hmemall n hn
      · rw [← hnodes2] at hsz
        exact hsz

end PassLemmas

section Claims

/-- C7: during `_create_game_graph` (both variants) the terminal/outcome
function is never invoked with the initial node as the candidate next
state: the root is inserted into the move graph before the traversal loop
starts, and every candidate already present in the move graph is skipped
before the terminal test, so the root node (`init`, resp. `(1, init)`) is
never tested for terminality even when some state's next states contain
the initial state.  The third component of `createGameGraph` records every
argument tuple passed to `_get_final_score` resp. `_get_winner`. -/
theorem C7_root_never_terminal_tested {S : Type u} [DecidableEq S]
    (init : S) (nextStates : S → List S) (finalScore : S → S → Option Int)
    (nextStatesT : Nat → S → List S) (getWinner : Nat → S → S → Option Nat)
    (fuel fuelT : Nat) :
    (∀ p ∈ (OnePlayer.createGameGraph init nextStates finalScore fuel).2.2,
      p.2 ≠ init) ∧
    (∀ p ∈ (TwoPlayer.createGameGraph init nextStatesT getWinner fuelT).2.2,
      (TwoPlayer.nextPlayer p.1, p.2.2) ≠ (1, init)) := by
  constructor
  · intro p hp
    exact op_buildLoop_trace fuel [init] _ _ []
      (by simp [DiGraph.addNode]) (by simp) p hp
  · intro p hp
    exact tp_buildLoop_trace fuelT [(1, init)] _ _ []
      (by simp [DiGraph.addNode]) (by simp) p hp

/-- C9: triangle peg board with `N_base = 1` under the intended grouping
of the initial-state expression (the literal source raises `TypeError`,
dividing a tuple by an integer).  The root `[0, 1]` has no legal moves and
`_get_final_score` would score it `-1`, but the builder never tests the
root for terminality and the root has no successors, so the solve raises
`NotSolvedException` with graph size 1 and 0 nodes solved instead of
labelling the root with value `-1` — contradicting the claimed behaviour. -/
theorem C9_triangle_peg_n1_not_solved :
    TrianglePegBoard.initialStateIntended 1 = [0, 1] ∧
    (∀ s, TrianglePegBoard.returnNextStates 1 s = some []) ∧
    TrianglePegBoard.getFinalScore 1 (TrianglePegBoard.initialStateIntended 1)
      (TrianglePegBoard.initialStateIntended 1) = some (-1) ∧
    findOptimalSolution
      (OnePlayer.getOptimalMove
        (OnePlayer.createGameGraph (TrianglePegBoard.initialStateIntended 1)
          (fun _ => []) (TrianglePegBoard.getFinalScore 1) 2).1)
      opAccept
      (OnePlayer.createGameGraph (TrianglePegBoard.initialStateIntended 1)
        (fun _ => []) (TrianglePegBoard.getFinalScore 1) 2).1
      (OnePlayer.createGameGraph (TrianglePegBoard.initialStateIntended 1)
        (fun _ => []) (TrianglePegBoard.getFinalScore 1) 2).2.1
      false 2 =
      .error (.notSolvedException 1 0) := by
  refine ⟨rfl, TrianglePegBoard.returnNextStates_one, ?_, ?_⟩
  · rw [TrianglePegBoard.getFinalScore, if_pos (TrianglePegBoard.iterNextStateLists_one _)]
    rfl
  · rfl

/-- C3: in the one-player solver, a candidate all of whose successors are
already solved resolves to the maximum of the successors' values together
with a successor achieving that maximum as witness; a candidate with any
unsolved successor yields `(None, None)` and is deferred. -/
theorem C3_one_player_resolution {S : Type u} [DecidableEq S]
    (g : DiGraph S) (og : OptGraph S Int) (node : S)
    (hall : allAttrs og) (hne : g.successors node ≠ []) :
    ((∀ s ∈ g.successors node, og.mem s = true) →
      ∃ v m, OnePlayer.getOptimalMove g og node = .res v m ∧
        m ∈ g.successors node ∧ og.getAttr m = some v ∧
        ∀ s ∈ g.successors node, ∀ w, og.getAttr s = some w → w ≤ v) ∧
    ((∃ s ∈ g.successors node, og.mem s = false) →
      OnePlayer.getOptimalMove g og node = .defer) := by
  constructor
  · intro hmem
    have hattrs : ∀ s ∈ g.successors node, (og.getAttr s).isSome = true := by
      intro s hs
      obtain ⟨v, hv⟩ := attr_of_mem_allAttrs hall (hmem s hs)
      rw [hv]
      rfl
    obtain ⟨v, m, hvm⟩ := maxPairs_total og _ none hattrs (Or.inl hne)
    have hres : OnePlayer.getOptimalMove g og node = .res v m := by
      unfold OnePlayer.getOptimalMove
      rw [if_neg, hvm]
      intro hany
      obtain ⟨s, hs, hfs⟩ := List.any_eq_true.mp hany
      rw [hmem s hs] at hfs
      cases hfs
    obtain ⟨h1, h2, h3⟩ := op_getOptimalMove_sound hres
    exact ⟨v, m, hres, h2, h1, h3⟩
  · exact op_getOptimalMove_defer

/-- Witness for C3 at a concrete two-successor game position. -/
theorem C3_witness :
    allAttrs (⟨[(1, some 5), (2, some 7)], []⟩ : OptGraph Nat Int) ∧
    (⟨[0, 1, 2], [(0, 1), (0, 2)]⟩ : DiGraph Nat).successors 0 ≠ [] ∧
    (((∀ s ∈ (⟨[0, 1, 2], [(0, 1), (0, 2)]⟩ : DiGraph Nat).successors 0,
        (⟨[(1, some 5), (2, some 7)], []⟩ : OptGraph Nat Int).mem s = true) →
      ∃ v m, OnePlayer.getOptimalMove (⟨[0, 1, 2], [(0, 1), (0, 2)]⟩ : DiGraph Nat)
          (⟨[(1, some 5), (2, some 7)], []⟩ : OptGraph Nat Int) 0 = .res v m ∧
        m ∈ (⟨[0, 1, 2], [(0, 1), (0, 2)]⟩ : DiGraph Nat).successors 0 ∧
        (⟨[(1, some 5), (2, some 7)], []⟩ : OptGraph Nat Int).getAttr m = some v ∧
        ∀ s ∈ (⟨[0, 1, 2], [(0, 1), (0, 2)]⟩ : DiGraph Nat).successors 0,
          ∀ w, (⟨[(1, some 5), (2, some 7)], []⟩ : OptGraph Nat Int).getAttr s =
            some w → w ≤ v) ∧
    ((∃ s ∈ (⟨[0, 1, 2], [(0, 1), (0, 2)]⟩ : DiGraph Nat).successors 0,
        (⟨[(1, some 5), (2, some 7)], []⟩ : OptGraph Nat Int).mem s = false) →
      OnePlayer.getOptimalMove (⟨[0, 1, 2], [(0, 1), (0, 2)]⟩ : DiGraph Nat)
        (⟨[(1, some 5), (2, some 7)], []⟩ : OptGraph Nat Int) 0 = .defer)) :=
  ⟨by decide, by decide,
    C3_one_player_resolution _ _ 0 (by decide) (by decide)⟩

/-- C2: in the two-player solver, a candidate `(p, st)` all of whose
successors carry a label in `{0, 1, 2}` resolves by the priority
mover-wins > draw > mover-loses: some successor labelled `p` gives
`p` wins with such a successor as witness; otherwise a draw-labelled
successor gives a draw with such a witness; otherwise (no win, no draw,
at least one successor) the opponent wins, witnessed by an
opponent-labelled successor. -/
theorem C2_two_player_priority {S : Type u} [DecidableEq S]
    (g : DiGraph (Nat × S)) (og : OptGraph (Nat × S) Nat) (p : Nat) (st : S)
    (hp : p = 1 ∨ p = 2)
    (hall : ∀ s ∈ g.successors (p, st), ∃ w, og.getAttr s = some w ∧
      (w = 0 ∨ w = 1 ∨ w = 2)) :
    ((∃ s ∈ g.successors (p, st), og.getAttr s = some p) →
      ∃ m, TwoPlayer.getOptimalMove g og (p, st) = .res p m ∧
        m ∈ g.successors (p, st) ∧ og.getAttr m = some p) ∧
    ((∀ s ∈ g.successors (p, st), og.getAttr s ≠ some p) →
      (∃ s ∈ g.successors (p, st), og.getAttr s = some 0) →
      ∃ m, TwoPlayer.getOptimalMove g og (p, st) = .res 0 m ∧
        m ∈ g.successors (p, st) ∧ og.getAttr m = some 0) ∧
    ((∀ s ∈ g.successors (p, st), og.getAttr s ≠ some p ∧ og.getAttr s ≠ some 0) →
      g.successors (p, st) ≠ [] →
      ∃ m, TwoPlayer.getOptimalMove g og (p, st) =
          .res (if p = 2 then 1 else 2) m ∧
        m ∈ g.successors (p, st) ∧
        og.getAttr m = some (if p = 2 then 1 else 2)) := by
  have ho0 : (if p = 2 then 1 else 2) ≠ 0 := by
    rcases hp with rfl | rfl <;> simp
  have hop : (if p = 2 then 1 else 2) ≠ p := by
    rcases hp with rfl | rfl <;> simp
  refine ⟨?_, ?_, ?_⟩
  · intro hwin
    obtain ⟨m, h1, h2, h3⟩ := tpScan_win og p (if p = 2 then 1 else 2)
      (g.successors (p, st)) none false
      (fun s hs _ => ⟨(hall s hs).choose, (hall s hs).choose_spec.1⟩) hwin
    exact ⟨m, h1, h2, h3⟩
  · intro hnp hdraw
    obtain ⟨m, h1, h2, h3⟩ := tpScan_draw og p (if p = 2 then 1 else 2) ho0
      (g.successors (p, st)) none
      (fun s hs => by
        obtain ⟨w, hw, _⟩ := hall s hs
        exact ⟨w, hw, fun h => hnp s hs (h ▸ hw)⟩)
      (Or.inl hdraw)
    rcases h3 with h3 | h3
    · exact ⟨m, h1, h3, h2⟩
    · cases h3
  · intro hno hne
    have hallo : ∀ s ∈ g.successors (p, st),
        og.getAttr s = some (if p = 2 then 1 else 2) := by
      intro s hs
      obtain ⟨w, hw, hw012⟩ := hall s hs
      obtain ⟨hnp, hn0⟩ := hno s hs
      have hwp : w ≠ p := fun h => hnp (h ▸ hw)
      have hwz : w ≠ 0 := fun h => hn0 (h ▸ hw)
      have : w = (if p = 2 then 1 else 2) := by
        rcases hp with rfl | rfl <;> rcases hw012 with rfl | rfl | rfl <;> simp_all
      exact this ▸ hw
    obtain ⟨m, h1, h2, h3⟩ := tpScan_lose og p (if p = 2 then 1 else 2) hop ho0
      (g.successors (p, st)) none hallo (Or.inl rfl) (Or.inl hne)
    rcases h3 with h3 | h3
    · exact ⟨m, h1, h3, h2⟩
    · cases h3

/-- Witness for C2 at a concrete position: player 1 to move, successors
labelled 2 (loss) and 0 (draw); the draw case fires. -/
theorem C2_witness :
    ((1 : Nat) = 1 ∨ (1 : Nat) = 2) ∧
    (∀ s ∈ (⟨[(1, 0), (2, 1), (2, 2)],
        [((1, 0), (2, 1)), ((1, 0), (2, 2))]⟩ : DiGraph (Nat × Nat)).successors (1, 0),
      ∃ w, (⟨[((2, 1), some 2), ((2, 2), some 0)], []⟩ :
        OptGraph (Nat × Nat) Nat).getAttr s = some w ∧ (w = 0 ∨ w = 1 ∨ w = 2)) ∧
    (((∃ s ∈ (⟨[(1, 0), (2, 1), (2, 2)],
        [((1, 0), (2, 1)), ((1, 0), (2, 2))]⟩ : DiGraph (Nat × Nat)).successors (1, 0),
        (⟨[((2, 1), some 2), ((2, 2), some 0)], []⟩ :
          OptGraph (Nat × Nat) Nat).getAttr s = some 1) →
      ∃ m, TwoPlayer.getOptimalMove
          (⟨[(1, 0), (2, 1), (2, 2)],
            [((1, 0), (2, 1)), ((1, 0), (2, 2))]⟩ : DiGraph (Nat × Nat))
          (⟨[((2, 1), some 2), ((2, 2), some 0)], []⟩ : OptGraph (Nat × Nat) Nat)
          (1, 0) = .res 1 m ∧
        m ∈ (⟨[(1, 0), (2, 1), (2, 2)],
          [((1, 0), (2, 1)), ((1, 0), (2, 2))]⟩ : DiGraph (Nat × Nat)).successors (1, 0) ∧
        (⟨[((2, 1), some 2), ((2, 2), some 0)], []⟩ :
          OptGraph (Nat × Nat) Nat).getAttr m = some 1) ∧
    ((∀ s ∈ (⟨[(1, 0), (2, 1), (2, 2)],
        [((1, 0), (2, 1)), ((1, 0), (2, 2))]⟩ : DiGraph (Nat × Nat)).successors (1, 0),
        (⟨[((2, 1), some 2), ((2, 2), some 0)], []⟩ :
          OptGraph (Nat × Nat) Nat).getAttr s ≠ some 1) →
      (∃ s ∈ (⟨[(1, 0), (2, 1), (2, 2)],
        [((1, 0), (2, 1)), ((1, 0), (2, 2))]⟩ : DiGraph (Nat × Nat)).successors (1, 0),
        (⟨[((2, 1), some 2), ((2, 2), some 0)], []⟩ :
          OptGraph (Nat × Nat) Nat).getAttr s = some 0) →
      ∃ m, TwoPlayer.getOptimalMove
          (⟨[(1, 0), (2, 1), (2, 2)],
            [((1, 0), (2, 1)), ((1, 0), (2, 2))]⟩ : DiGraph (Nat × Nat))
          (⟨[((2, 1), some 2), ((2, 2), some 0)], []⟩ : OptGraph (Nat × Nat) Nat)
          (1, 0) = .res 0 m ∧
        m ∈ (⟨[(1, 0), (2, 1), (2, 2)],
          [((1, 0), (2, 1)), ((1, 0), (2, 2))]⟩ : DiGraph (Nat × Nat)).successors (1, 0) ∧
        (⟨[((2, 1), some 2), ((2, 2), some 0)], []⟩ :
          OptGraph (Nat × Nat) Nat).getAttr m = some 0) ∧
    ((∀ s ∈ (⟨[(1, 0), (2, 1), (2, 2)],
        [((1, 0), (2, 1)), ((1, 0), (2, 2))]⟩ : DiGraph (Nat × Nat)).successors (1, 0),
        (⟨[((2, 1), some 2), ((2, 2), some 0)], []⟩ :
          OptGraph (Nat × Nat) Nat).getAttr s ≠ some 1 ∧
        (⟨[((2, 1), some 2), ((2, 2), some 0)], []⟩ :
          OptGraph (Nat × Nat) Nat).getAttr s ≠ some 0) →
      (⟨[(1, 0), (2, 1), (2, 2)],
        [((1, 0), (2, 1)), ((1, 0), (2, 2))]⟩ : DiGraph (Nat × Nat)).successors (1, 0) ≠ [] →
      ∃ m, TwoPlayer.getOptimalMove
          (⟨[(1, 0), (2, 1), (2, 2)],
            [((1, 0), (2, 1)), ((1, 0), (2, 2))]⟩ : DiGraph (Nat × Nat))
          (⟨[((2, 1), some 2), ((2, 2), some 0)], []⟩ : OptGraph (Nat × Nat) Nat)
          (1, 0) = .res (if (1 : Nat) = 2 then 1 else 2) m ∧
        m ∈ (⟨[(1, 0), (2, 1), (2, 2)],
          [((1, 0), (2, 1)), ((1, 0), (2, 2))]⟩ : DiGraph (Nat × Nat)).successors (1, 0) ∧
        (⟨[((2, 1), some 2), ((2, 2), some 0)], []⟩ :
          OptGraph (Nat × Nat) Nat).getAttr m =
          some (if (1 : Nat) = 2 then 1 else 2))) := by
  refine ⟨Or.inl rfl, ?_, ?_⟩
  · intro s hs
    have hsucc : (⟨[(1, 0), (2, 1), (2, 2)],
        [((1, 0), (2, 1)), ((1, 0), (2, 2))]⟩ :
        DiGraph (Nat × Nat)).successors (1, 0) = [(2, 1), (2, 2)] := by decide
    rw [hsucc] at hs
    simp only [List.mem_cons, List.not_mem_nil, or_false] at hs
    rcases hs with rfl | rfl
    · exact ⟨2, by decide, by decide⟩
    · exact ⟨0, by decide, by decide⟩
  · refine C2_two_player_priority _ _ 1 0 (Or.inl rfl) ?_
    intro s hs
    have hsucc : (⟨[(1, 0), (2, 1), (2, 2)],
        [((1, 0), (2, 1)), ((1, 0), (2, 2))]⟩ :
        DiGraph (Nat × Nat)).successors (1, 0) = [(2, 1), (2, 2)] := by decide
    rw [hsucc] at hs
    simp only [List.mem_cons, List.not_mem_nil, or_false] at hs
    rcases hs with rfl | rfl
    · exact ⟨2, by decide, by decide⟩
    · exact ⟨0, by decide, by decide⟩

/-- C4 counterexample: the candidate `(1, 0)` has the unsolved successor
`(2, 1)` (listed first), yet `_get_optimal_move` short-circuits on the
later successor `(2, 2)` labelled with the mover and resolves the
candidate as a player-1 win instead of returning no label. -/
theorem C4_counterexample :
    ((2, 1) ∈ (⟨[(1, 0), (2, 1), (2, 2)],
        [((1, 0), (2, 1)), ((1, 0), (2, 2))]⟩ : DiGraph (Nat × Nat)).successors (1, 0)) ∧
    (⟨[((2, 2), some 1)], []⟩ : OptGraph (Nat × Nat) Nat).mem (2, 1) = false ∧
    TwoPlayer.getOptimalMove
      (⟨[(1, 0), (2, 1), (2, 2)],
        [((1, 0), (2, 1)), ((1, 0), (2, 2))]⟩ : DiGraph (Nat × Nat))
      (⟨[((2, 2), some 1)], []⟩ : OptGraph (Nat × Nat) Nat) (1, 0) =
      .res 1 (2, 2) := by
  decide

/-- C4 amended: a candidate with at least one unsolved successor is
deferred (no label returned) provided no solved successor is labelled with
the mover; when some solved successor is labelled with the mover,
`_get_optimal_move` short-circuits and resolves the candidate as a mover
win even in the presence of unsolved successors. -/
theorem C4_amended {S : Type u} [DecidableEq S]
    (g : DiGraph (Nat × S)) (og : OptGraph (Nat × S) Nat) (p : Nat) (st : S)
    (hmem : ∀ s ∈ g.successors (p, st), og.mem s = true →
      ∃ w, og.getAttr s = some w) :
    ((∃ s ∈ g.successors (p, st), og.mem s = false) →
      (∀ s ∈ g.successors (p, st), ∀ w, og.getAttr s = some w → w ≠ p) →
      TwoPlayer.getOptimalMove g og (p, st) = .defer) ∧
    ((∃ s ∈ g.successors (p, st), og.getAttr s = some p) →
      ∃ m, TwoPlayer.getOptimalMove g og (p, st) = .res p m ∧
        m ∈ g.successors (p, st) ∧ og.getAttr m = some p) := by
  constructor
  · intro huns hnp
    exact tpScan_defer_unsolved og p _ (g.successors (p, st)) none
      (fun s hs hm => by
        obtain ⟨w, hw⟩ := hmem s hs hm
        exact ⟨w, hw, hnp s hs w hw⟩)
      huns
  · intro hwin
    exact tpScan_win og p _ (g.successors (p, st)) none false hmem hwin

/-- Witness for the amended C4: candidate `(1, 0)` with unsolved successor
`(2, 1)` and a solved loss successor `(2, 2)` is deferred. -/
theorem C4_amended_witness :
    (∀ s ∈ (⟨[(1, 0), (2, 1), (2, 2)],
        [((1, 0), (2, 1)), ((1, 0), (2, 2))]⟩ : DiGraph (Nat × Nat)).successors (1, 0),
      (⟨[((2, 2), some 2)], []⟩ : OptGraph (Nat × Nat) Nat).mem s = true →
      ∃ w, (⟨[((2, 2), some 2)], []⟩ : OptGraph (Nat × Nat) Nat).getAttr s = some w) ∧
    (((∃ s ∈ (⟨[(1, 0), (2, 1), (2, 2)],
        [((1, 0), (2, 1)), ((1, 0), (2, 2))]⟩ : DiGraph (Nat × Nat)).successors (1, 0),
        (⟨[((2, 2), some 2)], []⟩ : OptGraph (Nat × Nat) Nat).mem s = false) →
      (∀ s ∈ (⟨[(1, 0), (2, 1), (2, 2)],
        [((1, 0), (2, 1)), ((1, 0), (2, 2))]⟩ : DiGraph (Nat × Nat)).successors (1, 0),
        ∀ w, (⟨[((2, 2), some 2)], []⟩ : OptGraph (Nat × Nat) Nat).getAttr s =
          some w → w ≠ 1) →
      TwoPlayer.getOptimalMove
        (⟨[(1, 0), (2, 1), (2, 2)],
          [((1, 0), (2, 1)), ((1, 0), (2, 2))]⟩ : DiGraph (Nat × Nat))
        (⟨[((2, 2), some 2)], []⟩ : OptGraph (Nat × Nat) Nat) (1, 0) = .defer) ∧
    ((∃ s ∈ (⟨[(1, 0), (2, 1), (2, 2)],
        [((1, 0), (2, 1)), ((1, 0), (2, 2))]⟩ : DiGraph (Nat × Nat)).successors (1, 0),
        (⟨[((2, 2), some 2)], []⟩ : OptGraph (Nat × Nat) Nat).getAttr s = some 1) →
      ∃ m, TwoPlayer.getOptimalMove
          (⟨[(1, 0), (2, 1), (2, 2)],
            [((1, 0), (2, 1)), ((1, 0), (2, 2))]⟩ : DiGraph (Nat × Nat))
          (⟨[((2, 2), some 2)], []⟩ : OptGraph (Nat × Nat) Nat) (1, 0) = .res 1 m ∧
        m ∈ (⟨[(1, 0), (2, 1), (2, 2)],
          [((1, 0), (2, 1)), ((1, 0), (2, 2))]⟩ : DiGraph (Nat × Nat)).successors (1, 0) ∧
        (⟨[((2, 2), some 2)], []⟩ :
          OptGraph (Nat × Nat) Nat).getAttr m = some 1)) := by
  have hkey : ∀ s ∈ (⟨[(1, 0), (2, 1), (2, 2)],
      [((1, 0), (2, 1)), ((1, 0), (2, 2))]⟩ : DiGraph (Nat × Nat)).successors (1, 0),
      (⟨[((2, 2), some 2)], []⟩ : OptGraph (Nat × Nat) Nat).mem s = true →
      ∃ w, (⟨[((2, 2), some 2)], []⟩ :
        OptGraph (Nat × Nat) Nat).getAttr s = some w := by
    intro s hs hm
    have hsucc : (⟨[(1, 0), (2, 1), (2, 2)],
        [((1, 0), (2, 1)), ((1, 0), (2, 2))]⟩ :
        DiGraph (Nat × Nat)).successors (1, 0) = [(2, 1), (2, 2)] := by decide
    rw [hsucc] at hs
    simp only [List.mem_cons, List.not_mem_nil, or_false] at hs
    rcases hs with rfl | rfl
    · exact absurd hm (by decide)
    · exact ⟨2, by decide⟩
  exact ⟨hkey, C4_amended _ _ 1 0 hkey⟩

/-- C8 counterexample: a terminal node is pre-labelled during graph
construction and keeps zero outgoing edges in the optimal-move graph, even
after a successful solve — refuting the claimed outgoing witness edge for
"every node present in the Optimal-Move Graph — including the terminal
nodes". -/
theorem C8_counterexample :
    findOptimalSolution
      (OnePlayer.getOptimalMove (OnePlayer.createGameGraph (0 : Nat)
        (fun s => if s = 0 then [1] else [])
        (fun _ ns => if ns = 1 then some 3 else none) 3).1)
      opAccept
      (OnePlayer.createGameGraph (0 : Nat) (fun s => if s = 0 then [1] else [])
        (fun _ ns => if ns = 1 then some 3 else none) 3).1
      (OnePlayer.createGameGraph (0 : Nat) (fun s => if s = 0 then [1] else [])
        (fun _ ns => if ns = 1 then some 3 else none) 3).2.1
      false 3 =
      .ok (⟨[(1, some 3), (0, some 3)], [(0, 1)]⟩ : OptGraph Nat Int) ∧
    (⟨[(1, some 3), (0, some 3)], [(0, 1)]⟩ : OptGraph Nat Int).mem 1 = true ∧
    outEdges (⟨[(1, some 3), (0, some 3)], [(0, 1)]⟩ : OptGraph Nat Int) 1 = [] :=
  ⟨rfl, by decide, by decide⟩

/-- C8 amended: at every point of the solve phase (the fixed-point loop
run with any amount of fuel from the build output), every node of the
optimal-move graph carries exactly one label; every node solved during
the loop has an outgoing edge to a successor carrying the same label,
while the terminal nodes pre-labelled during graph construction have no
outgoing edges at all.  Both solver variants. -/
theorem C8_amended {S : Type u} [DecidableEq S] {T : Type u} [DecidableEq T]
    (g : DiGraph S) (og0 : OptGraph S Int)
    (gT : DiGraph (Nat × T)) (og0T : OptGraph (Nat × T) Nat)
    (hwf : GraphWF g) (hall0 : allAttrs og0) (hsrc0 : srcClosed og0)
    (hnd0 : og0.keys.Nodup) (hsub0 : ∀ k ∈ og0.keys, k ∈ g.nodes)
    (hedges0 : og0.edges = [])
    (hwfT : GraphWF gT) (hall0T : allAttrs og0T) (hsrc0T : srcClosed og0T)
    (hnd0T : og0T.keys.Nodup) (hsub0T : ∀ k ∈ og0T.keys, k ∈ gT.nodes)
    (hedges0T : og0T.edges = []) :
    (∀ fuel og2, solveLoop (OnePlayer.getOptimalMove g) opAccept g og0
        og0.keys fuel = some og2 →
      og2.keys.Nodup ∧
      (∀ n ∈ og2.keys, ∃ v, og2.getAttr n = some v) ∧
      (∀ n ∈ og2.keys, n ∉ og0.keys →
        ∃ m v, (n, m) ∈ og2.edges ∧ og2.getAttr n = some v ∧
          og2.getAttr m = some v) ∧
      (∀ n ∈ og0.keys, outEdges og2 n = [])) ∧
    (∀ fuel og2, solveLoop (TwoPlayer.getOptimalMove gT) tpAccept gT og0T
        og0T.keys fuel = some og2 →
      og2.keys.Nodup ∧
      (∀ n ∈ og2.keys, ∃ w, og2.getAttr n = some w) ∧
      (∀ n ∈ og2.keys, n ∉ og0T.keys →
        ∃ m w, (n, m) ∈ og2.edges ∧ og2.getAttr n = some w ∧
          og2.getAttr m = some w) ∧
      (∀ n ∈ og0T.keys, outEdges og2 n = [])) := by
  constructor
  · intro fuel og2 heq
    obtain ⟨og2', heq', hinv⟩ := solveLoop_spec hwf
      (fun og c v m h => (op_getOptimalMove_sound h).1)
      (fun og c hall hne => op_getOptimalMove_no_err hall hne)
      hsrc0 fuel og0 og0.keys (solveInv_init hall0 hsrc0 hnd0 hsub0)
    rw [heq] at heq'
    injection heq' with heq'
    rw [← heq'] at hinv
    obtain ⟨hall2, _, hnd2, _, _, _, hcount, hwit⟩ := hinv
    refine ⟨hnd2,
      fun n hn => attr_of_mem_allAttrs hall2 (mem_iff_mem_keys.mpr hn), hwit, ?_⟩
    intro n hn0
    have hc := hcount n
    rw [if_neg (fun h => h.2 hn0), hedges0] at hc
    have hc0 : countKey og2.edges n = 0 := hc
    have hlen : (outEdges og2 n).length = 0 := by
      rw [outEdges_countKey]
      exact hc0
    exact List.length_eq_zero.mp hlen
  · intro fuel og2 heq
    obtain ⟨og2', heq', hinv⟩ := solveLoop_spec hwfT
      (fun og c v m h => (tp_getOptimalMove_sound h).1)
      (fun og c hall hne => tp_getOptimalMove_no_err hall hne)
      hsrc0T fuel og0T og0T.keys (solveInv_init hall0T hsrc0T hnd0T hsub0T)
    rw [heq] at heq'
    injection heq' with heq'
    rw [← heq'] at hinv
    obtain ⟨hall2, _, hnd2, _, _, _, hcount, hwit⟩ := hinv
    refine ⟨hnd2,
      fun n hn => attr_of_mem_allAttrs hall2 (mem_iff_mem_keys.mpr hn), hwit, ?_⟩
    intro n hn0
    have hc := hcount n
    rw [if_neg (fun h => h.2 hn0), hedges0T] at hc
    have hc0 : countKey og2.edges n = 0 := hc
    have hlen : (outEdges og2 n).length = 0 := by
      rw [outEdges_countKey]
      exact hc0
    exact List.length_eq_zero.mp hlen

/-- Witness for the amended C8 at concrete one- and two-player games. -/
theorem C8_amended_witness :
    (GraphWF (⟨[0, 1], [(0, 1)]⟩ : DiGraph Nat) ∧
      allAttrs (⟨[(1, some 3)], []⟩ : OptGraph Nat Int) ∧
      srcClosed (⟨[(1, some 3)], []⟩ : OptGraph Nat Int) ∧
      (⟨[(1, some 3)], []⟩ : OptGraph Nat Int).keys.Nodup ∧
      (∀ k ∈ (⟨[(1, some 3)], []⟩ : OptGraph Nat Int).keys,
        k ∈ (⟨[0, 1], [(0, 1)]⟩ : DiGraph Nat).nodes) ∧
      (⟨[(1, some 3)], []⟩ : OptGraph Nat Int).edges = [] ∧
      GraphWF (⟨[(1, 0), (2, 1)], [((1, 0), (2, 1))]⟩ : DiGraph (Nat × Nat)) ∧
      allAttrs (⟨[((2, 1), some 1)], []⟩ : OptGraph (Nat × Nat) Nat) ∧
      srcClosed (⟨[((2, 1), some 1)], []⟩ : OptGraph (Nat × Nat) Nat) ∧
      (⟨[((2, 1), some 1)], []⟩ : OptGraph (Nat × Nat) Nat).keys.Nodup ∧
      (∀ k ∈ (⟨[((2, 1), some 1)], []⟩ : OptGraph (Nat × Nat) Nat).keys,
        k ∈ (⟨[(1, 0), (2, 1)], [((1, 0), (2, 1))]⟩ : DiGraph (Nat × Nat)).nodes) ∧
      (⟨[((2, 1), some 1)], []⟩ : OptGraph (Nat × Nat) Nat).edges = []) ∧
    (∀ fuel og2, solveLoop
        (OnePlayer.getOptimalMove (⟨[0, 1], [(0, 1)]⟩ : DiGraph Nat)) opAccept
        (⟨[0, 1], [(0, 1)]⟩ : DiGraph Nat) (⟨[(1, some 3)], []⟩ : OptGraph Nat Int)
        (⟨[(1, some 3)], []⟩ : OptGraph Nat Int).keys fuel = some og2 →
      og2.keys.Nodup ∧
      (∀ n ∈ og2.keys, ∃ v, og2.getAttr n = some v) ∧
      (∀ n ∈ og2.keys, n ∉ (⟨[(1, some 3)], []⟩ : OptGraph Nat Int).keys →
        ∃ m v, (n, m) ∈ og2.edges ∧ og2.getAttr n = some v ∧
          og2.getAttr m = some v) ∧
      (∀ n ∈ (⟨[(1, some 3)], []⟩ : OptGraph Nat Int).keys,
        outEdges og2 n = [])) := by
  have h := C8_amended (⟨[0, 1], [(0, 1)]⟩ : DiGraph Nat)
    (⟨[(1, some 3)], []⟩ : OptGraph Nat Int)
    (⟨[(1, 0), (2, 1)], [((1, 0), (2, 1))]⟩ : DiGraph (Nat × Nat))
    (⟨[((2, 1), some 1)], []⟩ : OptGraph (Nat × Nat) Nat)
    (by decide) (by decide) (by decide) (by decide) (by decide) (by decide)
    (by decide) (by decide) (by decide) (by decide) (by decide) (by decide)
  exact ⟨⟨by decide, by decide, by decide, by decide, by decide, by decide,
    by decide, by decide, by decide, by decide, by decide, by decide⟩, h.1⟩

/-- C10: every candidate the solver passes to `_get_optimal_move` is a
predecessor of a frontier node, hence has at least one successor in the
move graph; consequently the one-player `max` never sees an empty
sequence and the two-player `best_move['winner']` lookup never fails —
the fixed-point loop of either variant never raises. -/
theorem C10_solver_calls_safe {S : Type u} [DecidableEq S] {T : Type u} [DecidableEq T]
    (g : DiGraph S) (og0 : OptGraph S Int)
    (gT : DiGraph (Nat × T)) (og0T : OptGraph (Nat × T) Nat)
    (hwf : GraphWF g) (hall0 : allAttrs og0) (hsrc0 : srcClosed og0)
    (hnd0 : og0.keys.Nodup) (hsub0 : ∀ k ∈ og0.keys, k ∈ g.nodes)
    (hwfT : GraphWF gT) (hall0T : allAttrs og0T) (hsrc0T : srcClosed og0T)
    (hnd0T : og0T.keys.Nodup) (hsub0T : ∀ k ∈ og0T.keys, k ∈ gT.nodes) :
    (∀ (og : OptGraph S Int) (fr : List S), ∀ c ∈ candidatesOf g og fr,
      g.successors c ≠ []) ∧
    (∀ fuel, ∃ og2, solveLoop (OnePlayer.getOptimalMove g) opAccept g og0
      og0.keys fuel = some og2) ∧
    (∀ (og : OptGraph (Nat × T) Nat) (fr : List (Nat × T)),
      ∀ c ∈ candidatesOf gT og fr, gT.successors c ≠ []) ∧
    (∀ fuel, ∃ og2, solveLoop (TwoPlayer.getOptimalMove gT) tpAccept gT og0T
      og0T.keys fuel = some og2) := by
  refine ⟨fun og fr => candidatesOf_succ_ne, ?_, fun og fr => candidatesOf_succ_ne, ?_⟩
  · intro fuel
    obtain ⟨og2, heq, _⟩ := solveLoop_spec hwf
      (fun og c v m h => (op_getOptimalMove_sound h).1)
      (fun og c hall hne => op_getOptimalMove_no_err hall hne)
      hsrc0 fuel og0 og0.keys (solveInv_init hall0 hsrc0 hnd0 hsub0)
    exact ⟨og2, heq⟩
  · intro fuel
    obtain ⟨og2, heq, _⟩ := solveLoop_spec hwfT
      (fun og c v m h => (tp_getOptimalMove_sound h).1)
      (fun og c hall hne => tp_getOptimalMove_no_err hall hne)
      hsrc0T fuel og0T og0T.keys (solveInv_init hall0T hsrc0T hnd0T hsub0T)
    exact ⟨og2, heq⟩

/-- Witness for C10 at concrete one- and two-player games. -/
theorem C10_witness :
    (GraphWF (⟨[0, 1, 2], [(0, 1), (0, 2)]⟩ : DiGraph Nat) ∧
      allAttrs (⟨[(1, some 5), (2, some 5)], []⟩ : OptGraph Nat Int) ∧
      srcClosed (⟨[(1, some 5), (2, some 5)], []⟩ : OptGraph Nat Int) ∧
      (⟨[(1, some 5), (2, some 5)], []⟩ : OptGraph Nat Int).keys.Nodup ∧
      (∀ k ∈ (⟨[(1, some 5), (2, some 5)], []⟩ : OptGraph Nat Int).keys,
        k ∈ (⟨[0, 1, 2], [(0, 1), (0, 2)]⟩ : DiGraph Nat).nodes) ∧
      GraphWF (⟨[(1, 0), (2, 1), (2, 2)],
        [((1, 0), (2, 1)), ((1, 0), (2, 2))]⟩ : DiGraph (Nat × Nat)) ∧
      allAttrs (⟨[((2, 1), some 2), ((2, 2), some 0)], []⟩ :
        OptGraph (Nat × Nat) Nat) ∧
      srcClosed (⟨[((2, 1), some 2), ((2, 2), some 0)], []⟩ :
        OptGraph (Nat × Nat) Nat) ∧
      (⟨[((2, 1), some 2), ((2, 2), some 0)], []⟩ :
        OptGraph (Nat × Nat) Nat).keys.Nodup ∧
      (∀ k ∈ (⟨[((2, 1), some 2), ((2, 2), some 0)], []⟩ :
          OptGraph (Nat × Nat) Nat).keys,
        k ∈ (⟨[(1, 0), (2, 1), (2, 2)],
          [((1, 0), (2, 1)), ((1, 0), (2, 2))]⟩ : DiGraph (Nat × Nat)).nodes)) ∧
    (∃ og2, solveLoop
      (OnePlayer.getOptimalMove (⟨[0, 1, 2], [(0, 1), (0, 2)]⟩ : DiGraph Nat))
      opAccept (⟨[0, 1, 2], [(0, 1), (0, 2)]⟩ : DiGraph Nat)
      (⟨[(1, some 5), (2, some 5)], []⟩ : OptGraph Nat Int)
      (⟨[(1, some 5), (2, some 5)], []⟩ : OptGraph Nat Int).keys 5 = some og2) ∧
    (∃ og2, solveLoop
      (TwoPlayer.getOptimalMove (⟨[(1, 0), (2, 1), (2, 2)],
        [((1, 0), (2, 1)), ((1, 0), (2, 2))]⟩ : DiGraph (Nat × Nat))) tpAccept
      (⟨[(1, 0), (2, 1), (2, 2)],
        [((1, 0), (2, 1)), ((1, 0), (2, 2))]⟩ : DiGraph (Nat × Nat))
      (⟨[((2, 1), some 2), ((2, 2), some 0)], []⟩ : OptGraph (Nat × Nat) Nat)
      (⟨[((2, 1), some 2), ((2, 2), some 0)], []⟩ :
        OptGraph (Nat × Nat) Nat).keys 5 = some og2) := by
  have h := C10_solver_calls_safe (⟨[0, 1, 2], [(0, 1), (0, 2)]⟩ : DiGraph Nat)
    (⟨[(1, some 5), (2, some 5)], []⟩ : OptGraph Nat Int)
    (⟨[(1, 0), (2, 1), (2, 2)],
      [((1, 0), (2, 1)), ((1, 0), (2, 2))]⟩ : DiGraph (Nat × Nat))
    (⟨[((2, 1), some 2), ((2, 2), some 0)], []⟩ : OptGraph (Nat × Nat) Nat)
    (by decide) (by decide) (by decide) (by decide) (by decide)
    (by decide) (by decide) (by decide) (by decide) (by decide)
  exact ⟨⟨by decide, by decide, by decide, by decide, by decide,
    by decide, by decide, by decide, by decide, by decide⟩,
    h.2.1 5, h.2.2.2 5⟩

/-- C1: for every rule set (well-formed build output), the solve phase of
either variant either terminates with every move-graph node present in
the optimal-move graph (equal node counts), or raises
`NotSolvedException` carrying the move-graph size and the strictly
smaller number of nodes actually solved; exactly one of the two happens
and a stalled solve is never returned as a silent partial result. -/
theorem C1_solve_dichotomy {S : Type u} [DecidableEq S] {T : Type u} [DecidableEq T]
    (g : DiGraph S) (og0 : OptGraph S Int)
    (gT : DiGraph (Nat × T)) (og0T : OptGraph (Nat × T) Nat)
    (hwf : GraphWF g) (hall0 : allAttrs og0) (hsrc0 : srcClosed og0)
    (hnd0 : og0.keys.Nodup) (hsub0 : ∀ k ∈ og0.keys, k ∈ g.nodes)
    (hwfT : GraphWF gT) (hall0T : allAttrs og0T) (hsrc0T : srcClosed og0T)
    (hnd0T : og0T.keys.Nodup) (hsub0T : ∀ k ∈ og0T.keys, k ∈ gT.nodes)
    (keepAll keepAllT : Bool) (fuel fuelT : Nat) :
    ((∃ og2, findOptimalSolution (OnePlayer.getOptimalMove g) opAccept g og0
        keepAll fuel = .ok og2 ∧
      (∀ n ∈ g.nodes, og2.mem n = true) ∧ g.nodes.length = og2.nodes.length) ∨
    (∃ s, findOptimalSolution (OnePlayer.getOptimalMove g) opAccept g og0
        keepAll fuel = .error (.notSolvedException g.nodes.length s) ∧
      s < g.nodes.length)) ∧
    ((∃ og2, findOptimalSolution (TwoPlayer.getOptimalMove gT) tpAccept gT og0T
        keepAllT fuelT = .ok og2 ∧
      (∀ n ∈ gT.nodes, og2.mem n = true) ∧ gT.nodes.length = og2.nodes.length) ∨
    (∃ s, findOptimalSolution (TwoPlayer.getOptimalMove gT) tpAccept gT og0T
        keepAllT fuelT = .error (.notSolvedException gT.nodes.length s) ∧
      s < gT.nodes.length)) :=
  ⟨findOptimalSolution_dichotomy hwf
      (fun og c v m h => (op_getOptimalMove_sound h).1)
      (fun og c hall hne => op_getOptimalMove_no_err hall hne)
      hall0 hsrc0 hnd0 hsub0 keepAll fuel,
    findOptimalSolution_dichotomy hwfT
      (fun og c v m h => (tp_getOptimalMove_sound h).1)
      (fun og c hall hne => tp_getOptimalMove_no_err hall hne)
      hall0T hsrc0T hnd0T hsub0T keepAllT fuelT⟩

/-- Witness for C1 at concrete one- and two-player games. -/
theorem C1_witness :
    (GraphWF (⟨[0, 1, 2], [(0, 1), (0, 2)]⟩ : DiGraph Nat) ∧
      allAttrs (⟨[(1, some 5), (2, some 5)], []⟩ : OptGraph Nat Int) ∧
      srcClosed (⟨[(1, some 5), (2, some 5)], []⟩ : OptGraph Nat Int) ∧
      (⟨[(1, some 5), (2, some 5)], []⟩ : OptGraph Nat Int).keys.Nodup ∧
      (∀ k ∈ (⟨[(1, some 5), (2, some 5)], []⟩ : OptGraph Nat Int).keys,
        k ∈ (⟨[0, 1, 2], [(0, 1), (0, 2)]⟩ : DiGraph Nat).nodes) ∧
      GraphWF (⟨[(1, 0), (2, 1)], [((1, 0), (2, 1))]⟩ : DiGraph (Nat × Nat)) ∧
      allAttrs (⟨[((2, 1), some 1)], []⟩ : OptGraph (Nat × Nat) Nat) ∧
      srcClosed (⟨[((2, 1), some 1)], []⟩ : OptGraph (Nat × Nat) Nat) ∧
      (⟨[((2, 1), some 1)], []⟩ : OptGraph (Nat × Nat) Nat).keys.Nodup ∧
      (∀ k ∈ (⟨[((2, 1), some 1)], []⟩ : OptGraph (Nat × Nat) Nat).keys,
        k ∈ (⟨[(1, 0), (2, 1)], [((1, 0), (2, 1))]⟩ : DiGraph (Nat × Nat)).nodes)) ∧
    ((∃ og2, findOptimalSolution
        (OnePlayer.getOptimalMove (⟨[0, 1, 2], [(0, 1), (0, 2)]⟩ : DiGraph Nat))
        opAccept (⟨[0, 1, 2], [(0, 1), (0, 2)]⟩ : DiGraph Nat)
        (⟨[(1, some 5), (2, some 5)], []⟩ : OptGraph Nat Int) false 5 = .ok og2 ∧
      (∀ n ∈ (⟨[0, 1, 2], [(0, 1), (0, 2)]⟩ : DiGraph Nat).nodes,
        og2.mem n = true) ∧
      (⟨[0, 1, 2], [(0, 1), (0, 2)]⟩ : DiGraph Nat).nodes.length =
        og2.nodes.length) ∨
    (∃ s, findOptimalSolution
        (OnePlayer.getOptimalMove (⟨[0, 1, 2], [(0, 1), (0, 2)]⟩ : DiGraph Nat))
        opAccept (⟨[0, 1, 2], [(0, 1), (0, 2)]⟩ : DiGraph Nat)
        (⟨[(1, some 5), (2, some 5)], []⟩ : OptGraph Nat Int) false 5 =
        .error (.notSolvedException
          (⟨[0, 1, 2], [(0, 1), (0, 2)]⟩ : DiGraph Nat).nodes.length s) ∧
      s < (⟨[0, 1, 2], [(0, 1), (0, 2)]⟩ : DiGraph Nat).nodes.length)) := by
  have h := C1_solve_dichotomy (⟨[0, 1, 2], [(0, 1), (0, 2)]⟩ : DiGraph Nat)
    (⟨[(1, some 5), (2, some 5)], []⟩ : OptGraph Nat Int)
    (⟨[(1, 0), (2, 1)], [((1, 0), (2, 1))]⟩ : DiGraph (Nat × Nat))
    (⟨[((2, 1), some 1)], []⟩ : OptGraph (Nat × Nat) Nat)
    (by decide) (by decide) (by decide) (by decide) (by decide)
    (by decide) (by decide) (by decide) (by decide) (by decide)
    false false 5 5
  exact ⟨⟨by decide, by decide, by decide, by decide, by decide,
    by decide, by decide, by decide, by decide, by decide⟩, h.1⟩

/-- C5: the fixed-point loop of `_find_optimal_solution` terminates for
both variants: one round from any reachable optimal-move graph appends to
it exactly the newly solved candidates — each not previously present —
so each round either strictly grows the solved set (bounded by the move
graph size) or empties the frontier, and beyond `|move graph| + 1` units
of fuel the loop's result is fuel-independent: the solver never loops
forever. -/
theorem C5_loop_terminates {S : Type u} [DecidableEq S] {T : Type u} [DecidableEq T]
    (g : DiGraph S) (gT : DiGraph (Nat × T))
    (hwf : GraphWF g) (hwfT : GraphWF gT) :
    (∀ (og : OptGraph S Int) (fr : List S) (og1 : OptGraph S Int) (ns : List S),
      allAttrs og → srcClosed og → og.keys.Nodup →
      roundFold (OnePlayer.getOptimalMove g) opAccept (candidatesOf g og fr) og =
        some (og1, ns) →
      og1.keys = og.keys ++ ns ∧ ∀ c ∈ ns, og.mem c = false) ∧
    (∀ (og : OptGraph S Int) (fr : List S),
      allAttrs og → srcClosed og → og.keys.Nodup → (∀ x ∈ og.keys, x ∈ g.nodes) →
      ∀ m, solveLoop (OnePlayer.getOptimalMove g) opAccept g og fr
          (g.nodes.length + 1 + m) =
        solveLoop (OnePlayer.getOptimalMove g) opAccept g og fr
          (g.nodes.length + 1)) ∧
    (∀ (og : OptGraph (Nat × T) Nat) (fr : List (Nat × T))
        (og1 : OptGraph (Nat × T) Nat) (ns : List (Nat × T)),
      allAttrs og → srcClosed og → og.keys.Nodup →
      roundFold (TwoPlayer.getOptimalMove gT) tpAccept (candidatesOf gT og fr) og =
        some (og1, ns) →
      og1.keys = og.keys ++ ns ∧ ∀ c ∈ ns, og.mem c = false) ∧
    (∀ (og : OptGraph (Nat × T) Nat) (fr : List (Nat × T)),
      allAttrs og → srcClosed og → og.keys.Nodup → (∀ x ∈ og.keys, x ∈ gT.nodes) →
      ∀ m, solveLoop (TwoPlayer.getOptimalMove gT) tpAccept gT og fr
          (gT.nodes.length + 1 + m) =
        solveLoop (TwoPlayer.getOptimalMove gT) tpAccept gT og fr
          (gT.nodes.length + 1)) := by
  refine ⟨?_, ?_, ?_, ?_⟩
  · intro og fr og1 ns hall hsrc hnd heq
    obtain ⟨og2, ns2, es, h1, h2, _, _, h5, _, _, _, _, _⟩ :=
      roundFold_spec (fun og c v m h => (op_getOptimalMove_sound h).1)
        (fun og c hall2 hne => op_getOptimalMove_no_err hall2 hne)
        (candidatesOf g og fr) og hall hsrc hnd
        candidatesOf_fresh (nodup_candidatesOf g og fr) candidatesOf_succ_ne
    rw [heq] at h1
    injection h1 with h1
    have hog : og1 = og2 := congrArg Prod.fst h1
    have hns : ns = ns2 := congrArg Prod.snd h1
    subst hog
    subst hns
    exact ⟨h2, fun c hc => candidatesOf_fresh c (h5 hc)⟩
  · intro og fr hall hsrc hnd hsub m
    exact solveLoop_stable hwf (fun og2 c v m2 h => (op_getOptimalMove_sound h).1)
      (fun og2 c hall2 hne => op_getOptimalMove_no_err hall2 hne)
      g.nodes.length og fr hall hsrc hnd hsub (Nat.sub_le _ _)
      (g.nodes.length + 1 + m) (g.nodes.length + 1) (by omega) (by omega)
  · intro og fr og1 ns hall hsrc hnd heq
    obtain ⟨og2, ns2, es, h1, h2, _, _, h5, _, _, _, _, _⟩ :=
      roundFold_spec (fun og c v m h => (tp_getOptimalMove_sound h).1)
        (fun og c hall2 hne => tp_getOptimalMove_no_err hall2 hne)
        (candidatesOf gT og fr) og hall hsrc hnd
        candidatesOf_fresh (nodup_candidatesOf gT og fr) candidatesOf_succ_ne
    rw [heq] at h1
    injection h1 with h1
    have hog : og1 = og2 := congrArg Prod.fst h1
    have hns : ns = ns2 := congrArg Prod.snd h1
    subst hog
    subst hns
    exact ⟨h2, fun c hc => candidatesOf_fresh c (h5 hc)⟩
  · intro og fr hall hsrc hnd hsub m
    exact solveLoop_stable hwfT (fun og2 c v m2 h => (tp_getOptimalMove_sound h).1)
      (fun og2 c hall2 hne => tp_getOptimalMove_no_err hall2 hne)
      gT.nodes.length og fr hall hsrc hnd hsub (Nat.sub_le _ _)
      (gT.nodes.length + 1 + m) (gT.nodes.length + 1) (by omega) (by omega)

/-- Witness for C5 at concrete one- and two-player games: fuel beyond the
bound does not change the solve result. -/
theorem C5_witness :
    (GraphWF (⟨[0, 1, 2], [(0, 1), (0, 2)]⟩ : DiGraph Nat) ∧
      GraphWF (⟨[(1, 0), (2, 1)], [((1, 0), (2, 1))]⟩ : DiGraph (Nat × Nat)) ∧
      allAttrs (⟨[(1, some 5), (2, some 5)], []⟩ : OptGraph Nat Int) ∧
      srcClosed (⟨[(1, some 5), (2, some 5)], []⟩ : OptGraph Nat Int) ∧
      (⟨[(1, some 5), (2, some 5)], []⟩ : OptGraph Nat Int).keys.Nodup ∧
      (∀ x ∈ (⟨[(1, some 5), (2, some 5)], []⟩ : OptGraph Nat Int).keys,
        x ∈ (⟨[0, 1, 2], [(0, 1), (0, 2)]⟩ : DiGraph Nat).nodes)) ∧
    solveLoop (OnePlayer.getOptimalMove (⟨[0, 1, 2], [(0, 1), (0, 2)]⟩ : DiGraph Nat))
      opAccept (⟨[0, 1, 2], [(0, 1), (0, 2)]⟩ : DiGraph Nat)
      (⟨[(1, some 5), (2, some 5)], []⟩ : OptGraph Nat Int) [1, 2]
      ((⟨[0, 1, 2], [(0, 1), (0, 2)]⟩ : DiGraph Nat).nodes.length + 1 + 7) =
    solveLoop (OnePlayer.getOptimalMove (⟨[0, 1, 2], [(0, 1), (0, 2)]⟩ : DiGraph Nat))
      opAccept (⟨[0, 1, 2], [(0, 1), (0, 2)]⟩ : DiGraph Nat)
      (⟨[(1, some 5), (2, some 5)], []⟩ : OptGraph Nat Int) [1, 2]
      ((⟨[0, 1, 2], [(0, 1), (0, 2)]⟩ : DiGraph Nat).nodes.length + 1) := by
  have h := C5_loop_terminates (⟨[0, 1, 2], [(0, 1), (0, 2)]⟩ : DiGraph Nat)
    (⟨[(1, 0), (2, 1)], [((1, 0), (2, 1))]⟩ : DiGraph (Nat × Nat))
    (by decide) (by decide)
  exact ⟨⟨by decide, by decide, by decide, by decide, by decide, by decide⟩,
    h.2.1 (⟨[(1, some 5), (2, some 5)], []⟩ : OptGraph Nat Int) [1, 2]
      (by decide) (by decide) (by decide) (by decide) 7⟩

/-- C6: after a successful one-player solve: with `keep_all_solutions`
enabled the optimal-move graph contains an edge from every node to every
successor whose value ties the node's own value (so two tied successors
yield two edges); with it disabled every node solved during the loop (not
pre-labelled terminal) has exactly one outgoing edge. -/
theorem C6_keep_all_solutions {S : Type u} [DecidableEq S]
    (g : DiGraph S) (og0 : OptGraph S Int)
    (hwf : GraphWF g) (hall0 : allAttrs og0) (hsrc0 : srcClosed og0)
    (hnd0 : og0.keys.Nodup) (hsub0 : ∀ k ∈ og0.keys, k ∈ g.nodes)
    (hedges0 : og0.edges = []) (fuel : Nat) :
    (∀ og2, findOptimalSolution (OnePlayer.getOptimalMove g) opAccept g og0
        true fuel = .ok og2 →
      ∀ n ∈ g.nodes, ∀ s ∈ g.successors n, og2.getAttr s = og2.getAttr n →
        (n, s) ∈ og2.edges) ∧
    (∀ og2, findOptimalSolution (OnePlayer.getOptimalMove g) opAccept g og0
        false fuel = .ok og2 →
      ∀ n ∈ og2.keys, n ∉ og0.keys → (outEdges og2 n).length = 1) := by
  obtain ⟨og1, hloop, hinv⟩ := solveLoop_spec hwf
    (fun og c v m h => (op_getOptimalMove_sound h).1)
    (fun og c hall hne => op_getOptimalMove_no_err hall hne)
    hsrc0 fuel og0 og0.keys (solveInv_init hall0 hsrc0 hnd0 hsub0)
  obtain ⟨hall1, hsrc1, hnd1, hsub1, _, _, hcount1, _⟩ := hinv
  have hsp : List.Subperm og1.keys g.nodes :=
    List.subperm_of_subset hnd1 (fun x hx => hsub1 x hx)
  have hle : og1.keys.length ≤ g.nodes.length := hsp.length_le
  have hkl : og1.keys.length = og1.nodes.length := keys_length_eq og1
  constructor
  · intro og2 hok n hn s hs htie
    unfold findOptimalSolution at hok
    rw [hloop] at hok
    simp only at hok
    by_cases hsz : g.nodes.length ≠ og1.nodes.length
    · rw [if_pos hsz] at hok
      cases hok
    · rw [if_neg hsz] at hok
      rw [not_ne_iff] at hsz
      have hperm : List.Perm og1.keys g.nodes := hsp.perm_of_length_le (by omega)
      have hmemall : ∀ x ∈ g.nodes, x ∈ og1.keys :=
        fun x hx => hperm.mem_iff.mpr hx
      obtain ⟨og2', hpass, hnodes2, _, hties⟩ := keepAllPass_spec g.nodes og1 hall1
        hmemall
        (fun x _ t ht => hmemall t (hwf.2 (x, t) (mem_successors.mp ht)).2)
      rw [hpass] at hok
      simp only at hok
      injection hok with hok
      rw [← hok]
      refine hties n hn s hs ?_
      rw [← getAttr_congr hnodes2, ← getAttr_congr hnodes2, hok]
      exact htie
  · intro og2 hok n hn hn0
    unfold findOptimalSolution at hok
    rw [hloop] at hok
    simp only at hok
    by_cases hsz : g.nodes.length ≠ og1.nodes.length
    · rw [if_pos hsz] at hok
      cases hok
    · rw [if_neg hsz] at hok
      injection hok with hok
      rw [← hok] at hn
      rw [outEdges_countKey, ← hok, hcount1 n, if_pos ⟨hn, hn0⟩]

/-- Witness for C6: a root with two successors tied at value 5; with
`keep_all_solutions` both edges are present, without it the root has
exactly one outgoing edge. -/
theorem C6_witness :
    (GraphWF (⟨[0, 1, 2], [(0, 1), (0, 2)]⟩ : DiGraph Nat) ∧
      allAttrs (⟨[(1, some 5), (2, some 5)], []⟩ : OptGraph Nat Int) ∧
      srcClosed (⟨[(1, some 5), (2, some 5)], []⟩ : OptGraph Nat Int) ∧
      (⟨[(1, some 5), (2, some 5)], []⟩ : OptGraph Nat Int).keys.Nodup ∧
      (∀ k ∈ (⟨[(1, some 5), (2, some 5)], []⟩ : OptGraph Nat Int).keys,
        k ∈ (⟨[0, 1, 2], [(0, 1), (0, 2)]⟩ : DiGraph Nat).nodes) ∧
      (⟨[(1, some 5), (2, some 5)], []⟩ : OptGraph Nat Int).edges = []) ∧
    findOptimalSolution
      (OnePlayer.getOptimalMove (⟨[0, 1, 2], [(0, 1), (0, 2)]⟩ : DiGraph Nat))
      opAccept (⟨[0, 1, 2], [(0, 1), (0, 2)]⟩ : DiGraph Nat)
      (⟨[(1, some 5), (2, some 5)], []⟩ : OptGraph Nat Int) true 5 =
      .ok (⟨[(1, some 5), (2, some 5), (0, some 5)], [(0, 1), (0, 2)]⟩ :
        OptGraph Nat Int) ∧
    findOptimalSolution
      (OnePlayer.getOptimalMove (⟨[0, 1, 2], [(0, 1), (0, 2)]⟩ : DiGraph Nat))
      opAccept (⟨[0, 1, 2], [(0, 1), (0, 2)]⟩ : DiGraph Nat)
      (⟨[(1, some 5), (2, some 5)], []⟩ : OptGraph Nat Int) false 5 =
      .ok (⟨[(1, some 5), (2, some 5), (0, some 5)], [(0, 1)]⟩ :
        OptGraph Nat Int) ∧
    (∀ n ∈ (⟨[0, 1, 2], [(0, 1), (0, 2)]⟩ : DiGraph Nat).nodes,
      ∀ s ∈ (⟨[0, 1, 2], [(0, 1), (0, 2)]⟩ : DiGraph Nat).successors n,
      (⟨[(1, some 5), (2, some 5), (0, some 5)], [(0, 1), (0, 2)]⟩ :
        OptGraph Nat Int).getAttr s =
        (⟨[(1, some 5), (2, some 5), (0, some 5)], [(0, 1), (0, 2)]⟩ :
          OptGraph Nat Int).getAttr n →
      (n, s) ∈ (⟨[(1, some 5), (2, some 5), (0, some 5)], [(0, 1), (0, 2)]⟩ :
        OptGraph Nat Int).edges) ∧
    (∀ n ∈ (⟨[(1, some 5), (2, some 5), (0, some 5)], [(0, 1)]⟩ :
        OptGraph Nat Int).keys,
      n ∉ (⟨[(1, some 5), (2, some 5)], []⟩ : OptGraph Nat Int).keys →
      (outEdges (⟨[(1, some 5), (2, some 5), (0, some 5)], [(0, 1)]⟩ :
        OptGraph Nat Int) n).length = 1) := by
  have h := C6_keep_all_solutions (⟨[0, 1, 2], [(0, 1), (0, 2)]⟩ : DiGraph Nat)
    (⟨[(1, some 5), (2, some 5)], []⟩ : OptGraph Nat Int)
    (by decide) (by decide) (by decide) (by decide) (by decide) (by decide) 5
  refine ⟨⟨by decide, by decide, by decide, by decide, by decide, by decide⟩,
    rfl, rfl, h.1 _ rfl, h.2 _ rfl⟩

end Claims

end CGame
